import Mathlib

/-!
MiniRayTracer, `scene_object.h`.

A shallow embedding of the intersection-dispatch layer of the ray tracer
(`object_list`, `bvh_node`, the `box_compare_*` comparators) and proofs about it.

Conventions of the embedding.

* `float` values are elements of an arbitrary linearly ordered type `F` with a
  greatest element `⊤` (`INFINITY`) and a least element `⊥` (`-INFINITY`);
  rounding and NaN are not modelled.
* `hit(r, tmin, tmax, rec)` writes through the pointer `rec` and returns a `bool`:
  it becomes a function taking the record behind `rec` before the call and returning
  the `bool` together with the record behind `rec` after the call.
* `bounding_box(box, t0, t1)` becomes a function to `Option (aabb F)`; the box behind
  the pointer is only ever read by the callers after a `true` return.
* `scene_object` is an abstract base class: a value of `scene_object F` is the pair
  of its two virtual methods.
* The headers `ray.h` and `aabb.h`, the random generator and `qsort` are not part
  of the file; `aabb::hit`, `randf` and `qsort` are parameters of the definitions
  that call them.
-/

namespace MiniRayTracer

/-- Modelled from the spec: `vec3` (declared in a header that is not part of the
sources), a 3-component vector with per-axis access. -/
structure vec3 (F : Type) where
  x : F
  y : F
  z : F
deriving DecidableEq, Repr

/-- Modelled from the spec: `ray` (from `ray.h`), an origin and a direction. -/
structure ray (F : Type) where
  origin : vec3 F
  direction : vec3 F
deriving DecidableEq, Repr

/-- Modelled from the spec: `aabb` (from `aabb.h`), two corners `_min` and `_max`. -/
structure aabb (F : Type) where
  _min : vec3 F
  _max : vec3 F
deriving DecidableEq, Repr

/-- The `hit_record` struct; the material pointer is kept as an address. -/
structure hit_record (F : Type) where
  t : F
  p : vec3 F
  n : vec3 F
  mat_ptr : Nat
deriving DecidableEq, Repr

/-- The abstract base class `scene_object`: its two pure virtual methods. -/
structure scene_object (F : Type) where
  hit : ray F → F → F → hit_record F → Bool × hit_record F
  bounding_box : F → F → Option (aabb F)

/-- The type of `aabb::hit(r, tmin, tmax)`, whose body is in `aabb.h`. -/
abbrev box_test (F : Type) : Type := aabb F → ray F → F → F → Bool

section defs

variable {F : Type}

/-- Componentwise `min` of two vectors (the three iterations of the `axis` loop). -/
def vec3.min [LinearOrder F] (a b : vec3 F) : vec3 F :=
  ⟨Min.min a.x b.x, Min.min a.y b.y, Min.min a.z b.z⟩

/-- Componentwise `max` of two vectors (the three iterations of the `axis` loop). -/
def vec3.max [LinearOrder F] (a b : vec3 F) : vec3 F :=
  ⟨Max.max a.x b.x, Max.max a.y b.y, Max.max a.z b.z⟩

/-- Modelled from the spec: `surrounding_box` (from `aabb.h`), the union of two boxes:
componentwise min of mins, max of maxes. -/
def surrounding_box [LinearOrder F] (box0 box1 : aabb F) : aabb F :=
  ⟨vec3.min box0._min box1._min, vec3.max box0._max box1._max⟩

/-! ## object_list -/

/-- The class `object_list`: the array `list[0 .. count)` and the stored box. -/
structure object_list (F : Type) where
  list : List (scene_object F)
  box : aabb F

/-- The field `count`. -/
def object_list.count (ol : object_list F) : Nat := ol.list.length

/-- The method `object_list::bounding_box`. -/
def object_list.bounding_box [LinearOrder F] (ol : object_list F) (_t0 _t1 : F) :
    Option (aabb F) :=
  if ol.box._min.x > ol.box._max.x then none else some ol.box

/-- The loop of `object_list::hit` over the remaining children, on the loop state
`(hit, closest, cur_rec, *rec)`. -/
def object_list.hit_loop (r : ray F) (tmin : F) :
    List (scene_object F) → Bool × F × hit_record F × hit_record F →
      Bool × F × hit_record F × hit_record F
  | [], st => st
  | o :: rest, (hit, closest, cur_rec, rec) =>
    let res := o.hit r tmin closest cur_rec
    if res.1 then object_list.hit_loop r tmin rest (true, res.2.t, res.2, res.2)
    else object_list.hit_loop r tmin rest (hit, closest, res.2, rec)

/-- The method `object_list::hit`. `stack` is the content of the uninitialised local
`cur_rec`; `rec` is the record behind the output pointer before the call. -/
def object_list.hit (bh : box_test F) (stack : hit_record F) (ol : object_list F)
    (r : ray F) (tmin tmax : F) (rec : hit_record F) : Bool × hit_record F :=
  if bh ol.box r tmin tmax then
    let st := object_list.hit_loop r tmin ol.list (false, tmax, stack, rec)
    (st.1, st.2.2.2)
  else (false, rec)

/-- The loop of the constructor `object_list::object_list` over the remaining
children, on `(minbb, maxbb)`; the result is the box that gets stored. -/
def object_list.box_loop [LinearOrder F] (time0 time1 : F) :
    List (scene_object F) → vec3 F → vec3 F → aabb F
  | [], minbb, maxbb => ⟨minbb, maxbb⟩
  | o :: rest, minbb, maxbb =>
    match o.bounding_box time0 time1 with
    | some curbox =>
      object_list.box_loop time0 time1 rest (vec3.min minbb curbox._min)
        (vec3.max maxbb curbox._max)
    | none => ⟨minbb, maxbb⟩

/-- The constructor `object_list::object_list(l, n, time0, time1)`; `l` has `n`
elements. -/
def object_list.construct [LinearOrder F] [BoundedOrder F]
    (l : List (scene_object F)) (time0 time1 : F) : object_list F :=
  { list := l
    box := object_list.box_loop time0 time1 l ⟨⊤, ⊤, ⊤⟩ ⟨⊥, ⊥, ⊥⟩ }

/-- An `object_list` seen through a `scene_object*`. -/
def object_list.to_scene_object [LinearOrder F] (bh : box_test F) (stack : hit_record F)
    (ol : object_list F) : scene_object F :=
  { hit := object_list.hit bh stack ol
    bounding_box := object_list.bounding_box ol }

/-! ## bvh_node -/

/-- What a `scene_object*` held by a hierarchy points to: one of the caller's array
elements (`object`), or a `bvh_node` allocated by the constructor (`node`), with its
fields `left`, `right` and `box`. -/
inductive bvh_node (F : Type) where
  | object (o : scene_object F)
  | node (left right : bvh_node F) (box : aabb F)

/-- The virtual call `bounding_box` through a pointer of the hierarchy; on a `node`
this is `bvh_node::bounding_box`. -/
def bvh_node.bounding_box : bvh_node F → F → F → Option (aabb F)
  | .object o, t0, t1 => o.bounding_box t0 t1
  | .node _ _ box, _, _ => some box

/-- The virtual call `hit` through a pointer of the hierarchy; on a `node` this is
`bvh_node::hit`. `stack` is the content of the uninitialised locals `left_rec` and
`right_rec`. -/
def bvh_node.hit [LinearOrder F] (bh : box_test F) (stack : hit_record F) :
    bvh_node F → ray F → F → F → hit_record F → Bool × hit_record F
  | .object o, r, tmin, tmax, rec => o.hit r tmin tmax rec
  | .node left right box, r, tmin, tmax, rec =>
    if bh box r tmin tmax then
      let l := bvh_node.hit bh stack left r tmin tmax stack
      let rt := bvh_node.hit bh stack right r tmin tmax stack
      if !(l.1 || rt.1) then (false, rec)
      else if l.1 && rt.1 then
        if l.2.t < rt.2.t then (true, l.2) else (true, rt.2)
      else if l.1 then (true, l.2)
      else if rt.1 then (true, rt.2)
      else (true, rec)
    else (false, rec)

/-- A hierarchy seen through a `scene_object*`. -/
def bvh_node.to_scene_object [LinearOrder F] (bh : box_test F) (stack : hit_record F)
    (b : bvh_node F) : scene_object F :=
  { hit := bvh_node.hit bh stack b
    bounding_box := bvh_node.bounding_box b }

/-- The places where construction stops with `DebugBreak()`. -/
inductive fatal_error where
  | compare_no_bounding_box
  | invalid_coordinate_axis
  | constructor_no_bounding_box
deriving DecidableEq, Repr

/-- The signature `cmp_fn` of the comparators; a call either returns an `int` or
stops at `DebugBreak()`. -/
abbrev cmp_fn (F : Type) : Type :=
  scene_object F → scene_object F → Except fatal_error Int

/-- The comparator `box_compare_x`. -/
def box_compare_x [LinearOrder F] [Sub F] [Zero F] : cmp_fn F := fun a_obj b_obj =>
  match a_obj.bounding_box 0 0, b_obj.bounding_box 0 0 with
  | some box_left, some box_right =>
    if box_left._min.x - box_right._min.x = 0 then .ok 0
    else if box_left._min.x - box_right._min.x < 0 then .ok (-1)
    else .ok 1
  | _, _ => .error .compare_no_bounding_box

/-- The comparator `box_compare_y`. -/
def box_compare_y [LinearOrder F] [Sub F] [Zero F] : cmp_fn F := fun a_obj b_obj =>
  match a_obj.bounding_box 0 0, b_obj.bounding_box 0 0 with
  | some box_left, some box_right =>
    if box_left._min.y - box_right._min.y = 0 then .ok 0
    else if box_left._min.y - box_right._min.y < 0 then .ok (-1)
    else .ok 1
  | _, _ => .error .compare_no_bounding_box

/-- The comparator `box_compare_z`. -/
def box_compare_z [LinearOrder F] [Sub F] [Zero F] : cmp_fn F := fun a_obj b_obj =>
  match a_obj.bounding_box 0 0, b_obj.bounding_box 0 0 with
  | some box_left, some box_right =>
    if box_left._min.z - box_right._min.z = 0 then .ok 0
    else if box_left._min.z - box_right._min.z < 0 then .ok (-1)
    else .ok 1
  | _, _ => .error .compare_no_bounding_box

/-- The selector `box_compare(axis)`. -/
def box_compare [LinearOrder F] [Sub F] [Zero F] (axis : Int) :
    Except fatal_error (cmp_fn F) :=
  match axis with
  | 0 => .ok box_compare_x
  | 1 => .ok box_compare_y
  | 2 => .ok box_compare_z
  | _ => .error .invalid_coordinate_axis

/-- The conversion `int(x)` of a floating-point value: truncation toward zero. -/
def float_to_int (x : ℚ) : Int := if 0 ≤ x then ⌊x⌋ else ⌈x⌉

/-- The type of `qsort(list, n, sizeof(scene_object*), cmp)` on the `n` elements of
`list`: the array after the call, unless a comparator call stopped the program. -/
abbrev sort_fn (F : Type) : Type :=
  cmp_fn F → List (scene_object F) → Except fatal_error (List (scene_object F))

/-- Outcome of running the recursive constructor with a bound on the depth of nested
constructor calls. -/
inductive outcome (α : Type) where
  | done (a : α)
  | fatal (e : fatal_error)
  | out_of_fuel

/-- The constructor `bvh_node::bvh_node(list, n, time0, time1, rng)` on the `n`
elements of `list`, with at most `fuel` nested constructor calls. `randf` draws the
next value from the generator state; the result is the new node, the array as the
constructor leaves it, and the generator state. The array is sorted in place, so the
tests `n == 1` and `n == 2` are read off the array after the sort, and `list + n / 2`
is what remains of it after the first `n / 2` elements. -/
def bvh_node.construct [LinearOrder F] [Sub F] [Zero F] {G : Type} (qsort : sort_fn F)
    (randf : G → ℚ × G) :
    Nat → List (scene_object F) → F → F → G →
      outcome (bvh_node F × List (scene_object F) × G)
  | 0, _, _, _, _ => .out_of_fuel
  | fuel + 1, list, time0, time1, rng =>
    let draw := randf rng
    let axis := float_to_int (3 * draw.1)
    match box_compare axis with
    | .error e => .fatal e
    | .ok cmp =>
      match qsort cmp list with
      | .error e => .fatal e
      | .ok sorted =>
        let n := sorted.length
        let children : outcome (bvh_node F × bvh_node F × List (scene_object F) × G) :=
          match sorted with
          | [e] => .done (.object e, .object e, sorted, draw.2)
          | [e0, e1] => .done (.object e0, .object e1, sorted, draw.2)
          | _ =>
            match bvh_node.construct qsort randf fuel (sorted.take (n / 2)) time0 time1
                draw.2 with
            | .out_of_fuel => .out_of_fuel
            | .fatal e => .fatal e
            | .done (left, list_left, rng_left) =>
              match bvh_node.construct qsort randf fuel (sorted.drop (n / 2)) time0 time1
                  rng_left with
              | .out_of_fuel => .out_of_fuel
              | .fatal e => .fatal e
              | .done (right, list_right, rng_right) =>
                .done (left, right, list_left ++ list_right, rng_right)
        match children with
        | .out_of_fuel => .out_of_fuel
        | .fatal e => .fatal e
        | .done (left, right, list_after, rng_after) =>
          match left.bounding_box time0 time1, right.bounding_box time0 time1 with
          | some box_left, some box_right =>
            .done (.node left right (surrounding_box box_left box_right), list_after,
              rng_after)
          | _, _ => .fatal .constructor_no_bounding_box

/-- The leaves of a hierarchy read left to right, one per child pointer. -/
def bvh_node.leaves : bvh_node F → List (scene_object F)
  | .object o => [o]
  | .node left right _ => left.leaves ++ right.leaves

/-- The logical leaves, read left to right, of a hierarchy built over `n` elements:
a node built from one element holds that element in both `left` and `right` and
contributes it once; otherwise `left` is built over the first `n / 2` elements and
`right` over the remaining `n - n / 2`. -/
def bvh_node.logical_leaves : Nat → bvh_node F → List (scene_object F)
  | _, .object o => [o]
  | n, .node left right _ =>
    if n = 1 then left.logical_leaves 1
    else left.logical_leaves (n / 2) ++ right.logical_leaves (n - n / 2)

/-- The `bvh_node` objects of a hierarchy, the root first. -/
def bvh_node.nodes : bvh_node F → List (bvh_node F)
  | .object _ => []
  | .node left right box => .node left right box :: (left.nodes ++ right.nodes)

/-! ## Contracts of the collaborators -/

/-- Box `a` lies inside box `b`. -/
def aabb.inside [LinearOrder F] (a b : aabb F) : Prop :=
  (b._min.x ≤ a._min.x ∧ b._min.y ≤ a._min.y ∧ b._min.z ≤ a._min.z) ∧
    (a._max.x ≤ b._max.x ∧ a._max.y ≤ b._max.y ∧ a._max.z ≤ b._max.z)

/-- A valid box: `min <= max` componentwise. -/
def aabb.valid [LinearOrder F] (a : aabb F) : Prop :=
  a._min.x ≤ a._max.x ∧ a._min.y ≤ a._max.y ∧ a._min.z ≤ a._max.z

/-- The union of a list of boxes: componentwise min of all mins and max of all maxes,
starting from `+INFINITY` / `-INFINITY`. -/
def union_all [LinearOrder F] [BoundedOrder F] (boxes : List (aabb F)) : aabb F :=
  boxes.foldr surrounding_box ⟨⟨⊤, ⊤, ⊤⟩, ⟨⊥, ⊥, ⊥⟩⟩

/-- The boxes of the elements of an array over `[time0, time1]`. -/
def element_boxes (l : List (scene_object F)) (time0 time1 : F) : List (aabb F) :=
  l.filterMap fun o => o.bounding_box time0 time1

/-- A box test that never rejects a ray on a larger box: a ray that meets a box on
`[tmin, tmax]` meets every box containing it. -/
def box_test.monotone [LinearOrder F] (bh : box_test F) : Prop :=
  ∀ a b r tmin tmax, aabb.inside a b → bh a r tmin tmax = true → bh b r tmin tmax = true

/-- The value `s` is a root of `o` along `r`: some query reports it. -/
def scene_object.root (o : scene_object F) (r : ray F) (s : F) : Prop :=
  ∃ tmin tmax rec, (o.hit r tmin tmax rec).1 = true ∧ (o.hit r tmin tmax rec).2.t = s

/-- The contract of `hit` for a leaf: a reported `t` lies in the queried interval and
is the closest root of the leaf in it, and a leaf with a root in the interval reports
a hit. -/
structure leaf_contract [LinearOrder F] (o : scene_object F) : Prop where
  range : ∀ r tmin tmax rec, (o.hit r tmin tmax rec).1 = true →
    tmin ≤ (o.hit r tmin tmax rec).2.t ∧ (o.hit r tmin tmax rec).2.t ≤ tmax
  closest : ∀ r tmin tmax rec s, (o.hit r tmin tmax rec).1 = true → o.root r s →
    tmin ≤ s → s ≤ tmax → (o.hit r tmin tmax rec).2.t ≤ s
  complete : ∀ r tmin tmax rec s, o.root r s → tmin ≤ s → s ≤ tmax →
    (o.hit r tmin tmax rec).1 = true

/-- The contract between `hit` and `bounding_box` for a leaf: the ray meets the box
of the leaf on every interval on which it hits the leaf. -/
def box_contract (bh : box_test F) (time0 time1 : F) (o : scene_object F) : Prop :=
  ∀ box r tmin tmax rec, o.bounding_box time0 time1 = some box →
    (o.hit r tmin tmax rec).1 = true → bh box r tmin tmax = true

/-- The contract of `qsort`: the array after the call is a rearrangement of the array
before it, and the call stops the program only where a comparator call on two of the
elements does. The order of the result is left open, so every procedure that returns
a sorted rearrangement meets the contract. -/
structure sort_contract (qsort : sort_fn F) : Prop where
  perm : ∀ cmp l l', qsort cmp l = .ok l' → l'.Perm l
  fatal : ∀ cmp l e, qsort cmp l = .error e → ∃ a ∈ l, ∃ b ∈ l, cmp a b = .error e

/-- The contract of `randf`: every draw lies in `[0, 1)`. -/
def randf_contract {G : Type} (randf : G → ℚ × G) : Prop :=
  ∀ g, 0 ≤ (randf g).1 ∧ (randf g).1 < 1

/-- The nearest-hit relation: `(ok, t)` is the answer of a nearest-hit query over the
objects `l`: `ok` tells whether some object has a root in `[tmin, tmax]`, and then `t`
is the least such root. -/
def nearest [LinearOrder F] (l : List (scene_object F)) (r : ray F) (tmin tmax : F)
    (ok : Bool) (t : F) : Prop :=
  (ok = true ↔ ∃ o ∈ l, ∃ s, o.root r s ∧ tmin ≤ s ∧ s ≤ tmax) ∧
    (ok = true → (tmin ≤ t ∧ t ≤ tmax) ∧ (∃ o ∈ l, o.root r t) ∧
      ∀ o ∈ l, ∀ s, o.root r s → tmin ≤ s → s ≤ tmax → t ≤ s)

/-- The node and the final array of a completed construction: `built time0 time1 l b`
says that `b` is the hierarchy whose constructor left the array as `l`: one element
is held by both children, two elements are the two children, and more are split at
`n / 2` between two built children; the box is the union of the children's boxes. -/
inductive built [LinearOrder F] (time0 time1 : F) :
    List (scene_object F) → bvh_node F → Prop
  | one (e : scene_object F) (b : aabb F) :
    e.bounding_box time0 time1 = some b →
    built time0 time1 [e] (.node (.object e) (.object e) (surrounding_box b b))
  | two (e0 e1 : scene_object F) (b0 b1 : aabb F) :
    e0.bounding_box time0 time1 = some b0 → e1.bounding_box time0 time1 = some b1 →
    built time0 time1 [e0, e1] (.node (.object e0) (.object e1) (surrounding_box b0 b1))
  | many (l0 l1 : List (scene_object F)) (left right : bvh_node F) (b0 b1 : aabb F) :
    2 < l0.length + l1.length → l0.length = (l0.length + l1.length) / 2 →
    built time0 time1 l0 left → built time0 time1 l1 right →
    left.bounding_box time0 time1 = some b0 → right.bounding_box time0 time1 = some b1 →
    built time0 time1 (l0 ++ l1) (.node left right (surrounding_box b0 b1))

/-! ## Instrumentation and measures -/

/-- The loop of `object_list::hit` with a counter of the calls of `hit` on children:
the loop state of `object_list.hit_loop` and the number of calls made so far. -/
def object_list.hit_loop_counted (r : ray F) (tmin : F) :
    List (scene_object F) → (Bool × F × hit_record F × hit_record F) × Nat →
      (Bool × F × hit_record F × hit_record F) × Nat
  | [], st => st
  | o :: rest, ((hit, closest, cur_rec, rec), visits) =>
    let res := o.hit r tmin closest cur_rec
    if res.1 then
      object_list.hit_loop_counted r tmin rest ((true, res.2.t, res.2, res.2), visits + 1)
    else object_list.hit_loop_counted r tmin rest ((hit, closest, res.2, rec), visits + 1)

/-- The method `object_list::hit` with a counter of the calls of `hit` on children:
the result of `object_list.hit` and the number of children visited. -/
def object_list.hit_counted (bh : box_test F) (stack : hit_record F) (ol : object_list F)
    (r : ray F) (tmin tmax : F) (rec : hit_record F) : (Bool × hit_record F) × Nat :=
  if bh ol.box r tmin tmax then
    let st := object_list.hit_loop_counted r tmin ol.list ((false, tmax, stack, rec), 0)
    ((st.1.1, st.1.2.2.2), st.2)
  else ((false, rec), 0)

/-- The method `bvh_node::hit` with a counter of the calls of `hit` on children, made
by the node and by the nodes below it: the result of `bvh_node.hit` and the number of
child visits. -/
def bvh_node.hit_counted [LinearOrder F] (bh : box_test F) (stack : hit_record F) :
    bvh_node F → ray F → F → F → hit_record F → (Bool × hit_record F) × Nat
  | .object o, r, tmin, tmax, rec => (o.hit r tmin tmax rec, 0)
  | .node left right box, r, tmin, tmax, rec =>
    if bh box r tmin tmax then
      let l := bvh_node.hit_counted bh stack left r tmin tmax stack
      let rt := bvh_node.hit_counted bh stack right r tmin tmax stack
      let visits := (1 + l.2) + (1 + rt.2)
      if !(l.1.1 || rt.1.1) then ((false, rec), visits)
      else if l.1.1 && rt.1.1 then
        if l.1.2.t < rt.1.2.t then ((true, l.1.2), visits) else ((true, rt.1.2), visits)
      else if l.1.1 then ((true, l.1.2), visits)
      else if rt.1.1 then ((true, rt.1.2), visits)
      else ((true, rec), visits)
    else ((false, rec), 0)

/-- The number `D(n)` of draws of a construction over `n` elements: one for the node,
then those of the first `n / 2` elements, then those of the remaining `n - n / 2`. -/
def draws (n : Nat) : Nat :=
  if h : n ≤ 2 then 1
  else 1 + draws (n / 2) + draws (n - n / 2)
termination_by n
decreasing_by
  all_goals simp_wf
  all_goals omega

/-- The generator state after one draw. -/
def advance {G : Type} (randf : G → ℚ × G) (g : G) : G := (randf g).2

/-- Per-axis read access `v[axis]` of a vector. -/
def vec3.get (v : vec3 F) (axis : Int) : F :=
  match axis with
  | 0 => v.x
  | 1 => v.y
  | _ => v.z

/-- The three-way comparison of two exact numbers: `0` if equal, `-1` if the first is
smaller, `1` if it is larger. -/
def three_way [LinearOrder F] (p q : F) : Int :=
  if p = q then 0 else if p < q then -1 else 1

/-- The index of the first child whose `bounding_box` fails over `[time0, time1]`, or
the number of children if none fails. -/
def first_boxless (time0 time1 : F) : List (scene_object F) → Nat
  | [] => 0
  | o :: rest =>
    match o.bounding_box time0 time1 with
    | some _ => 1 + first_boxless time0 time1 rest
    | none => 0

/-! ## A concrete scene

Collaborators on which the definitions can be evaluated: rays taken along the x axis
and parametrised by their x coordinate, boxes as primitives, an insertion sort and a
cyclic generator. -/

/-- A ray-interval box test for rays running along the x axis, the parameter of a
point being its x coordinate: the ray passes through the y and z extent of the box
and `[tmin, tmax]` overlaps the x extent. -/
def probe_hit [LinearOrder F] : box_test F := fun box r tmin tmax =>
  decide ((box._min.y ≤ r.origin.y ∧ r.origin.y ≤ box._max.y) ∧
    (box._min.z ≤ r.origin.z ∧ r.origin.z ≤ box._max.z) ∧
    Max.max tmin box._min.x ≤ Min.min tmax box._max.x)

/-- A solid box `[lo, hi]` as a primitive for rays along the x axis: the roots are
the entry `lo.x` and the exit `hi.x`. -/
def slab [LinearOrder F] (lo hi : vec3 F) (mat : Nat) : scene_object F where
  hit := fun r tmin tmax rec =>
    if (lo.y ≤ r.origin.y ∧ r.origin.y ≤ hi.y) ∧ (lo.z ≤ r.origin.z ∧ r.origin.z ≤ hi.z) then
      if tmin ≤ lo.x ∧ lo.x ≤ tmax then
        (true, ⟨lo.x, ⟨lo.x, r.origin.y, r.origin.z⟩, r.direction, mat⟩)
      else if tmin ≤ hi.x ∧ hi.x ≤ tmax then
        (true, ⟨hi.x, ⟨hi.x, r.origin.y, r.origin.z⟩, r.direction, mat⟩)
      else (false, rec)
    else (false, rec)
  bounding_box := fun _ _ => some ⟨lo, hi⟩

/-- An unbounded plane `x = x0` as a primitive for rays along the x axis: one root,
no bounding box. -/
def sheet [LinearOrder F] (x0 : F) (mat : Nat) : scene_object F where
  hit := fun r tmin tmax rec =>
    if tmin ≤ x0 ∧ x0 ≤ tmax then
      (true, ⟨x0, ⟨x0, r.origin.y, r.origin.z⟩, r.direction, mat⟩)
    else (false, rec)
  bounding_box := fun _ _ => none

/-- Insertion of one element into an array by a comparator that may stop the
program. -/
def insert_by (cmp : cmp_fn F) (a : scene_object F) :
    List (scene_object F) → Except fatal_error (List (scene_object F))
  | [] => .ok [a]
  | b :: rest =>
    match cmp a b with
    | .error e => .error e
    | .ok c =>
      if c ≤ 0 then .ok (a :: b :: rest)
      else
        match insert_by cmp a rest with
        | .error e => .error e
        | .ok l => .ok (b :: l)

/-- Insertion sort by a comparator that may stop the program. -/
def insertion_sort : sort_fn F := fun cmp l =>
  l.foldr (fun a acc =>
    match acc with
    | .error e => .error e
    | .ok sorted => insert_by cmp a sorted) (.ok [])

/-- A generator whose draws cycle through `0`, `1/3`, `2/3`. -/
def cycle_randf (g : Nat) : ℚ × Nat := (((g % 3 : Nat) : ℚ) / 3, g + 1)

/-- A scale of exact values on which the definitions can be evaluated: the integers
`-7 .. 7`, with `-8` standing for `-INFINITY` and `8` for `+INFINITY`. The value `v` is
stored as `v + 8`. -/
def level : Type := Fin 17

instance : LinearOrder level := inferInstanceAs (LinearOrder (Fin 17))

instance : BoundedOrder level := inferInstanceAs (BoundedOrder (Fin 17))

instance : Fintype level := inferInstanceAs (Fintype (Fin 17))

instance : Repr level := ⟨fun a _ => repr ((a.val : Int) - 8)⟩

/-- The numeral `n` is the value `n`, capped at `+INFINITY`. -/
instance (n : Nat) : OfNat level n := ⟨(Fin.ofNat (Min.min (n + 8) 16) : Fin 17)⟩

instance : Zero level := ⟨(0 : level)⟩

/-- Negation mirrors the scale around `0`. -/
instance : Neg level := ⟨fun a => (Fin.ofNat (16 - a.val) : Fin 17)⟩

/-- Subtraction is exact on small values and saturates at the infinities. -/
instance : Sub level := ⟨fun a b => (Fin.ofNat (Min.min (a.val + 8 - b.val) 16) : Fin 17)⟩

/-- A ray along the x axis through `y = z = 5`. -/
def high_ray : ray level := ⟨⟨0, 5, 5⟩, ⟨1, 0, 0⟩⟩

/-- The x axis as a ray. -/
def low_ray : ray level := ⟨⟨0, 0, 0⟩, ⟨1, 0, 0⟩⟩

/-- A blank record. -/
def blank : hit_record level := ⟨0, ⟨0, 0, 0⟩, ⟨0, 0, 0⟩, 0⟩

/-- A boxed primitive on the x axis followed by an unbounded plane. -/
def mixed_scene : List (scene_object level) :=
  [slab ⟨1, -1, -1⟩ ⟨3, 1, 1⟩ 7, sheet 5 8]

/-- Three boxed primitives, two of them on the x axis. -/
def boxed_scene : List (scene_object level) :=
  [slab ⟨4, -1, -1⟩ ⟨6, 1, 1⟩ 1, slab ⟨1, -1, -1⟩ ⟨3, 1, 1⟩ 2, slab ⟨1, 4, 4⟩ ⟨2, 6, 6⟩ 3]

end defs

/-! ## The aggregate: lemmas -/

section aggregate

variable {F : Type}

theorem hit_loop_flag (r : ray F) (tmin : F) (l : List (scene_object F)) :
    ∀ c cur rec, (object_list.hit_loop r tmin l (true, c, cur, rec)).1 = true := by
  induction l with
  | nil => intro c cur rec; rfl
  | cons o rest ih =>
    intro c cur rec
    simp only [object_list.hit_loop]
    split <;> exact ih _ _ _

theorem hit_loop_some_child (r : ray F) (tmin : F) (l : List (scene_object F)) :
    ∀ h c cur rec, (∃ o ∈ l, ∀ cur0, (o.hit r tmin c cur0).1 = true) →
      (object_list.hit_loop r tmin l (h, c, cur, rec)).1 = true := by
  induction l with
  | nil => intro h c cur rec hex; obtain ⟨o, ho, _⟩ := hex; cases ho
  | cons o rest ih =>
    intro h c cur rec hex
    simp only [object_list.hit_loop]
    split
    · exact hit_loop_flag r tmin rest _ _ _
    · rename_i hmiss
      apply ih
      obtain ⟨o1, ho1, hall⟩ := hex
      rcases List.mem_cons.1 ho1 with heq | hin
      · subst heq; exact absurd (hall cur) hmiss
      · exact ⟨o1, hin, hall⟩

theorem hit_loop_miss_frame (r : ray F) (tmin : F) (l : List (scene_object F)) :
    ∀ c cur rec, (object_list.hit_loop r tmin l (false, c, cur, rec)).1 = false →
      (object_list.hit_loop r tmin l (false, c, cur, rec)).2.2.2 = rec := by
  induction l with
  | nil => intro c cur rec _; rfl
  | cons o rest ih =>
    intro c cur rec
    simp only [object_list.hit_loop]
    split
    · intro h; rw [hit_loop_flag] at h; cases h
    · intro h; exact ih _ _ _ h

variable [LinearOrder F]

/-- The loop of `object_list::hit` under the leaf contract: what the state holds after
the remaining children `l` have been scanned. -/
theorem hit_loop_spec (r : ray F) (tmin : F) (l : List (scene_object F))
    (hc : ∀ o ∈ l, leaf_contract o) :
    ∀ h c cur rec, (h = true → rec.t = c) →
      let st := object_list.hit_loop r tmin l (h, c, cur, rec)
      (st.1 = true ↔ h = true ∨ ∃ o ∈ l, ∃ s, o.root r s ∧ tmin ≤ s ∧ s ≤ c) ∧
      (st.1 = true → st.2.2.2.t = st.2.1) ∧
      st.2.1 ≤ c ∧
      (∀ o ∈ l, ∀ s, o.root r s → tmin ≤ s → s ≤ c → st.2.1 ≤ s) ∧
      (st.2.1 = c ∨ ∃ o ∈ l, o.root r st.2.1 ∧ tmin ≤ st.2.1) := by
  induction l with
  | nil =>
    intro h c cur rec hinv
    show (h = true ↔ h = true ∨ ∃ o ∈ ([] : List (scene_object F)), ∃ s, o.root r s ∧
      tmin ≤ s ∧ s ≤ c) ∧ (h = true → rec.t = c) ∧ c ≤ c ∧
      (∀ o ∈ ([] : List (scene_object F)), ∀ s, o.root r s → tmin ≤ s → s ≤ c → c ≤ s) ∧
      (c = c ∨ ∃ o ∈ ([] : List (scene_object F)), o.root r c ∧ tmin ≤ c)
    refine ⟨?_, hinv, le_refl _, ?_, Or.inl rfl⟩
    · constructor
      · intro h1; exact Or.inl h1
      · rintro (h1 | ⟨o, ho, _⟩)
        · exact h1
        · cases ho
    · intro o ho; cases ho
  | cons o rest ih =>
    intro h c cur rec hinv
    have hco : leaf_contract o := hc o (List.mem_cons_self _ _)
    have hcr : ∀ o1 ∈ rest, leaf_contract o1 :=
      fun o1 h1 => hc o1 (List.mem_cons_of_mem _ h1)
    simp only [object_list.hit_loop]
    split
    · rename_i hhit
      have hrange := hco.range r tmin c cur hhit
      have hroot : o.root r (o.hit r tmin c cur).2.t := ⟨tmin, c, cur, hhit, rfl⟩
      obtain ⟨i1, i2, i3, i4, i5⟩ :=
        ih hcr true (o.hit r tmin c cur).2.t (o.hit r tmin c cur).2 (o.hit r tmin c cur).2
          (fun _ => rfl)
      refine ⟨?_, i2, le_trans i3 hrange.2, ?_, ?_⟩
      · constructor
        · intro _
          exact Or.inr ⟨o, List.mem_cons_self _ _, _, hroot, hrange.1, hrange.2⟩
        · intro _; exact i1.2 (Or.inl rfl)
      · intro o1 ho1 s hs hlo hhi
        rcases List.mem_cons.1 ho1 with heq | hin
        · subst heq
          exact le_trans i3 (hco.closest r tmin c cur s hhit hs hlo hhi)
        · rcases le_total s (o.hit r tmin c cur).2.t with hle | hle
          · exact i4 o1 hin s hs hlo hle
          · exact le_trans i3 hle
      · rcases i5 with heq | ⟨o1, ho1, hr1, hlo1⟩
        · right
          refine ⟨o, List.mem_cons_self _ _, ?_, ?_⟩
          · rw [heq]; exact hroot
          · rw [heq]; exact hrange.1
        · exact Or.inr ⟨o1, List.mem_cons_of_mem _ ho1, hr1, hlo1⟩
    · rename_i hmiss
      have hnone : ∀ s, o.root r s → tmin ≤ s → s ≤ c → False := fun s hs hlo hhi =>
        hmiss (hco.complete r tmin c cur s hs hlo hhi)
      obtain ⟨i1, i2, i3, i4, i5⟩ := ih hcr h c (o.hit r tmin c cur).2 rec hinv
      refine ⟨?_, i2, i3, ?_, ?_⟩
      · rw [i1]
        constructor
        · rintro (h1 | ⟨o1, ho1, hex⟩)
          · exact Or.inl h1
          · exact Or.inr ⟨o1, List.mem_cons_of_mem _ ho1, hex⟩
        · rintro (h1 | ⟨o1, ho1, s, hs, hlo, hhi⟩)
          · exact Or.inl h1
          · rcases List.mem_cons.1 ho1 with heq | hin
            · subst heq; exact absurd hhi (fun hhi => hnone s hs hlo hhi)
            · exact Or.inr ⟨o1, hin, s, hs, hlo, hhi⟩
      · intro o1 ho1 s hs hlo hhi
        rcases List.mem_cons.1 ho1 with heq | hin
        · subst heq; exact absurd hhi (fun hhi => hnone s hs hlo hhi)
        · exact i4 o1 hin s hs hlo hhi
      · rcases i5 with heq | ⟨o1, ho1, hr1, hlo1⟩
        · exact Or.inl heq
        · exact Or.inr ⟨o1, List.mem_cons_of_mem _ ho1, hr1, hlo1⟩

/-- The scan of `object_list::hit`, started from `(false, tmax)`, answers the
nearest-hit query over the children. -/
theorem hit_loop_nearest (r : ray F) (tmin tmax : F) (l : List (scene_object F))
    (hc : ∀ o ∈ l, leaf_contract o) (cur rec : hit_record F) :
    nearest l r tmin tmax (object_list.hit_loop r tmin l (false, tmax, cur, rec)).1
      (object_list.hit_loop r tmin l (false, tmax, cur, rec)).2.2.2.t := by
  obtain ⟨i1, i2, i3, i4, i5⟩ :=
    hit_loop_spec r tmin l hc false tmax cur rec (fun h => by cases h)
  have hiff : (object_list.hit_loop r tmin l (false, tmax, cur, rec)).1 = true ↔
      ∃ o ∈ l, ∃ s, o.root r s ∧ tmin ≤ s ∧ s ≤ tmax := by
    rw [i1]
    constructor
    · rintro (h | h)
      · cases h
      · exact h
    · intro h; exact Or.inr h
  refine ⟨hiff, ?_⟩
  intro hok
  rw [i2 hok]
  obtain ⟨o, ho, s, hs, hlo, hhi⟩ := hiff.1 hok
  have hle := i4 o ho s hs hlo hhi
  rcases i5 with heq | ⟨o1, ho1, hr1, hlo1⟩
  · have hs_eq : s = tmax := le_antisymm hhi (heq ▸ hle)
    refine ⟨⟨?_, i3⟩, ⟨o, ho, ?_⟩, i4⟩
    · rw [heq, ← hs_eq]; exact hlo
    · rw [heq, ← hs_eq]; exact hs
  · exact ⟨⟨hlo1, i3⟩, ⟨o1, ho1, hr1⟩, i4⟩

/-- Under the leaf contract, a query on `[tmin, tmax]` hits exactly when the object has
a root in the interval. -/
theorem leaf_hit_iff_root {o : scene_object F} (hc : leaf_contract o) (r : ray F)
    (tmin tmax : F) (rec : hit_record F) :
    (o.hit r tmin tmax rec).1 = true ↔ ∃ s, o.root r s ∧ tmin ≤ s ∧ s ≤ tmax := by
  constructor
  · intro h
    exact ⟨_, ⟨tmin, tmax, rec, h, rfl⟩, (hc.range r tmin tmax rec h).1,
      (hc.range r tmin tmax rec h).2⟩
  · rintro ⟨s, hs, hlo, hhi⟩
    exact hc.complete r tmin tmax rec s hs hlo hhi

/-- The nearest-hit relation determines the answer. -/
theorem nearest_unique {l : List (scene_object F)} {r : ray F} {tmin tmax : F}
    {ok ok1 : Bool} {t t1 : F} (h : nearest l r tmin tmax ok t)
    (h1 : nearest l r tmin tmax ok1 t1) : ok = ok1 ∧ (ok = true → t = t1) := by
  have hb : ok = ok1 := by
    have hiff : ok = true ↔ ok1 = true := h.1.trans h1.1.symm
    cases ok <;> cases ok1 <;> simp_all
  refine ⟨hb, ?_⟩
  intro hok
  obtain ⟨⟨a1, a2⟩, ⟨o, ho, hr⟩, a3⟩ := h.2 hok
  obtain ⟨⟨b1, b2⟩, ⟨o1, ho1, hr1⟩, b3⟩ := h1.2 (hb ▸ hok)
  exact le_antisymm (a3 o1 ho1 t1 hr1 b1 b2) (b3 o ho t hr a1 a2)

/-- The nearest-hit relation only depends on the set of objects. -/
theorem nearest_congr {l : List (scene_object F)} (l1 : List (scene_object F))
    {r : ray F} {tmin tmax : F}
    {ok : Bool} {t : F} (hsub : ∀ o, o ∈ l ↔ o ∈ l1) (h : nearest l r tmin tmax ok t) :
    nearest l1 r tmin tmax ok t := by
  obtain ⟨h1, h2⟩ := h
  refine ⟨?_, ?_⟩
  · rw [h1]
    constructor
    · rintro ⟨o, ho, hex⟩; exact ⟨o, (hsub o).1 ho, hex⟩
    · rintro ⟨o, ho, hex⟩; exact ⟨o, (hsub o).2 ho, hex⟩
  · intro hok
    obtain ⟨a, ⟨o, ho, hr⟩, c⟩ := h2 hok
    exact ⟨a, ⟨o, (hsub o).1 ho, hr⟩, fun o1 ho1 => c o1 ((hsub o1).2 ho1)⟩

/-- The stored box only grows along the scan of the constructor. -/
theorem box_loop_bounds (time0 time1 : F) (l : List (scene_object F)) :
    ∀ minbb maxbb : vec3 F,
      (object_list.box_loop time0 time1 l minbb maxbb)._min.x ≤ minbb.x ∧
        maxbb.x ≤ (object_list.box_loop time0 time1 l minbb maxbb)._max.x := by
  induction l with
  | nil => intro minbb maxbb; exact ⟨le_refl _, le_refl _⟩
  | cons o rest ih =>
    intro minbb maxbb
    simp only [object_list.box_loop]
    split
    · rename_i curbox _
      obtain ⟨h1, h2⟩ := ih (vec3.min minbb curbox._min) (vec3.max maxbb curbox._max)
      exact ⟨le_trans h1 (min_le_left _ _), le_trans (le_max_left _ _) h2⟩
    · exact ⟨le_refl _, le_refl _⟩

/-- What a successful query of a `slab` reports. -/
theorem slab_hit_true {lo hi : vec3 F} {mat : Nat} {r : ray F} {tmin tmax : F}
    {rec : hit_record F} (h : ((slab lo hi mat).hit r tmin tmax rec).1 = true) :
    ((lo.y ≤ r.origin.y ∧ r.origin.y ≤ hi.y) ∧ (lo.z ≤ r.origin.z ∧ r.origin.z ≤ hi.z)) ∧
      (((tmin ≤ lo.x ∧ lo.x ≤ tmax) ∧ ((slab lo hi mat).hit r tmin tmax rec).2.t = lo.x) ∨
        ((tmin ≤ hi.x ∧ hi.x ≤ tmax) ∧ ¬ (tmin ≤ lo.x ∧ lo.x ≤ tmax) ∧
          ((slab lo hi mat).hit r tmin tmax rec).2.t = hi.x)) := by
  simp only [slab] at h ⊢
  split_ifs at h ⊢ with h1 h2 h3
  · exact ⟨h1, Or.inl ⟨h2, rfl⟩⟩
  · exact ⟨h1, Or.inr ⟨h3, h2, rfl⟩⟩

/-- A `slab` with `lo.x <= hi.x` obeys the leaf contract. -/
theorem slab_leaf_contract (lo hi : vec3 F) (mat : Nat) (hx : lo.x ≤ hi.x) :
    leaf_contract (slab lo hi mat) := by
  have hroot : ∀ r s, (slab lo hi mat).root r s →
      ((lo.y ≤ r.origin.y ∧ r.origin.y ≤ hi.y) ∧ (lo.z ≤ r.origin.z ∧ r.origin.z ≤ hi.z)) ∧
        (s = lo.x ∨ s = hi.x) := by
    rintro r s ⟨a, b, rec, hhit, ht⟩
    obtain ⟨hyz, hcase | hcase⟩ := slab_hit_true hhit
    · exact ⟨hyz, Or.inl (ht ▸ hcase.2)⟩
    · exact ⟨hyz, Or.inr (ht ▸ hcase.2.2)⟩
  refine ⟨?_, ?_, ?_⟩
  · intro r tmin tmax rec hhit
    obtain ⟨_, ⟨hr, ht⟩ | ⟨hr, _, ht⟩⟩ := slab_hit_true hhit
    · rw [ht]; exact hr
    · rw [ht]; exact hr
  · intro r tmin tmax rec s hhit hs hlo hhi
    obtain ⟨_, hs⟩ := hroot r s hs
    obtain ⟨_, ⟨hr, ht⟩ | ⟨hr, hn, ht⟩⟩ := slab_hit_true hhit
    · rw [ht]
      rcases hs with rfl | rfl
      · exact le_refl _
      · exact hx
    · rw [ht]
      rcases hs with rfl | rfl
      · exact absurd ⟨hlo, hhi⟩ hn
      · exact le_refl _
  · intro r tmin tmax rec s hs hlo hhi
    obtain ⟨hyz, hs⟩ := hroot r s hs
    simp only [slab]
    rcases hs with rfl | rfl
    · rw [if_pos hyz, if_pos ⟨hlo, hhi⟩]
    · rw [if_pos hyz]
      split_ifs with h2 h3
      · rfl
      · rfl
      · exact absurd ⟨hlo, hhi⟩ h3

/-- A `slab` with `lo.x <= hi.x` is met by `probe_hit` on its box wherever it is hit. -/
theorem slab_box_contract (lo hi : vec3 F) (mat : Nat) (hx : lo.x ≤ hi.x)
    (time0 time1 : F) : box_contract probe_hit time0 time1 (slab lo hi mat) := by
  intro box r tmin tmax rec hbox hhit
  have hb : box = ⟨lo, hi⟩ := by
    simp only [slab] at hbox
    exact (Option.some.inj hbox).symm
  subst hb
  obtain ⟨hyz, ⟨hr, _⟩ | ⟨hr, _, _⟩⟩ := slab_hit_true hhit
  · simp only [probe_hit, decide_eq_true_eq]
    exact ⟨hyz.1, hyz.2, max_le (le_min (le_trans hr.1 hr.2) (le_trans hr.1 hx))
      (le_min hr.2 hx)⟩
  · simp only [probe_hit, decide_eq_true_eq]
    exact ⟨hyz.1, hyz.2, max_le (le_min (le_trans hr.1 hr.2) hr.1)
      (le_min (le_trans hx hr.2) hx)⟩

/-- The box test `probe_hit` never rejects a ray on a larger box. -/
theorem probe_hit_monotone : box_test.monotone (probe_hit : box_test F) := by
  intro a b r tmin tmax hin h
  simp only [probe_hit, decide_eq_true_eq] at h ⊢
  obtain ⟨⟨m1, m2, m3⟩, ⟨n1, n2, n3⟩⟩ := hin
  obtain ⟨⟨hy1, hy2⟩, ⟨hz1, hz2⟩, hov⟩ := h
  refine ⟨⟨le_trans m2 hy1, le_trans hy2 n2⟩, ⟨le_trans m3 hz1, le_trans hz2 n3⟩, ?_⟩
  exact le_trans (max_le_max (le_refl _) m1) (le_trans hov (min_le_min (le_refl _) n1))

/-- The primitives of `boxed_scene` obey the leaf contract. -/
theorem boxed_scene_leaf_contract : ∀ o ∈ boxed_scene, leaf_contract o := by
  intro o ho
  simp only [boxed_scene, List.mem_cons, List.mem_singleton, List.not_mem_nil,
    or_false] at ho
  rcases ho with rfl | rfl | rfl <;> exact slab_leaf_contract _ _ _ (by decide)

/-- The primitives of `boxed_scene` obey the box contract for `probe_hit`. -/
theorem boxed_scene_box_contract (time0 time1 : level) :
    ∀ o ∈ boxed_scene, box_contract probe_hit time0 time1 o := by
  intro o ho
  simp only [boxed_scene, List.mem_cons, List.mem_singleton, List.not_mem_nil,
    or_false] at ho
  rcases ho with rfl | rfl | rfl <;> exact slab_box_contract _ _ _ (by decide) _ _

end aggregate

/-! ## The hierarchy: lemmas -/

section hierarchy

variable {F : Type}

/-- A draw in `[0, 1)` gives the axis 0, 1 or 2. -/
theorem axis_of_draw (u : ℚ) (h0 : 0 ≤ u) (h1 : u < 1) :
    float_to_int (3 * u) = 0 ∨ float_to_int (3 * u) = 1 ∨ float_to_int (3 * u) = 2 := by
  have hnn : (0 : ℚ) ≤ 3 * u := by linarith
  have hlt : 3 * u < 3 := by linarith
  unfold float_to_int
  rw [if_pos hnn]
  have hf0 : 0 ≤ ⌊3 * u⌋ := Int.floor_nonneg.2 hnn
  have hf3 : ⌊3 * u⌋ < 3 := Int.floor_lt.2 (by exact_mod_cast hlt)
  omega

variable [LinearOrder F] [Sub F] [Zero F]

/-- A comparator call stops the program only when one of the two elements has no
bounding box. -/
theorem box_compare_x_error {a b : scene_object F} {e : fatal_error}
    (h : box_compare_x a b = .error e) :
    e = .compare_no_bounding_box ∧
      (a.bounding_box 0 0 = none ∨ b.bounding_box 0 0 = none) := by
  unfold box_compare_x at h
  cases ha : a.bounding_box 0 0 with
  | none => rw [ha] at h; simp at h; exact ⟨h.symm, Or.inl rfl⟩
  | some ba =>
    cases hb : b.bounding_box 0 0 with
    | none => rw [ha, hb] at h; simp at h; exact ⟨h.symm, Or.inr rfl⟩
    | some bb =>
      rw [ha, hb] at h
      simp only at h
      split_ifs at h

theorem box_compare_y_error {a b : scene_object F} {e : fatal_error}
    (h : box_compare_y a b = .error e) :
    e = .compare_no_bounding_box ∧
      (a.bounding_box 0 0 = none ∨ b.bounding_box 0 0 = none) := by
  unfold box_compare_y at h
  cases ha : a.bounding_box 0 0 with
  | none => rw [ha] at h; simp at h; exact ⟨h.symm, Or.inl rfl⟩
  | some ba =>
    cases hb : b.bounding_box 0 0 with
    | none => rw [ha, hb] at h; simp at h; exact ⟨h.symm, Or.inr rfl⟩
    | some bb =>
      rw [ha, hb] at h
      simp only at h
      split_ifs at h

theorem box_compare_z_error {a b : scene_object F} {e : fatal_error}
    (h : box_compare_z a b = .error e) :
    e = .compare_no_bounding_box ∧
      (a.bounding_box 0 0 = none ∨ b.bounding_box 0 0 = none) := by
  unfold box_compare_z at h
  cases ha : a.bounding_box 0 0 with
  | none => rw [ha] at h; simp at h; exact ⟨h.symm, Or.inl rfl⟩
  | some ba =>
    cases hb : b.bounding_box 0 0 with
    | none => rw [ha, hb] at h; simp at h; exact ⟨h.symm, Or.inr rfl⟩
    | some bb =>
      rw [ha, hb] at h
      simp only at h
      split_ifs at h

/-- For an axis 0, 1 or 2 the selector returns a comparator, and that comparator stops
the program only on an element without a bounding box. -/
theorem box_compare_valid_axis (axis : Int) (h : axis = 0 ∨ axis = 1 ∨ axis = 2) :
    ∃ cmp : cmp_fn F, box_compare axis = .ok cmp ∧
      ∀ a b e, cmp a b = .error e → e = .compare_no_bounding_box ∧
        (a.bounding_box 0 0 = none ∨ b.bounding_box 0 0 = none) := by
  rcases h with rfl | rfl | rfl
  · exact ⟨box_compare_x, rfl, fun _ _ _ h => box_compare_x_error h⟩
  · exact ⟨box_compare_y, rfl, fun _ _ _ h => box_compare_y_error h⟩
  · exact ⟨box_compare_z, rfl, fun _ _ _ h => box_compare_z_error h⟩


omit [Sub F] [Zero F] in
/-- The root left by a completed construction is a `bvh_node`, whose `bounding_box`
returns its stored box. -/
theorem built_root_box {time0 time1 : F} {l : List (scene_object F)} {b : bvh_node F}
    (h : built time0 time1 l b) : ∃ box, ∀ t0 t1, b.bounding_box t0 t1 = some box := by
  cases h with
  | one e b0 _ => exact ⟨_, fun _ _ => rfl⟩
  | two e0 e1 b0 b1 _ _ => exact ⟨_, fun _ _ => rfl⟩
  | many l0 l1 left right b0 b1 _ _ _ _ _ _ => exact ⟨_, fun _ _ => rfl⟩

/-- One constructor call on a non-empty array with enough fuel: either it completes,
leaving a rearrangement of the array and the hierarchy built over it, or it stops at a
`DebugBreak()` of a comparator or of the child-box check, and then some element has no
bounding box. -/
theorem construct_result {G : Type} (qsort : sort_fn F) (randf : G → ℚ × G)
    (hq : sort_contract qsort) (hr : randf_contract randf) (time0 time1 : F) :
    ∀ (fuel : Nat) (list : List (scene_object F)) (rng : G), list ≠ [] →
      list.length ≤ fuel →
      (∃ b l g, bvh_node.construct qsort randf fuel list time0 time1 rng = .done (b, l, g) ∧
        l.Perm list ∧ built time0 time1 l b) ∨
      (∃ e, bvh_node.construct qsort randf fuel list time0 time1 rng = .fatal e ∧
        e ≠ .invalid_coordinate_axis ∧
        ∃ o ∈ list, o.bounding_box 0 0 = none ∨ o.bounding_box time0 time1 = none) := by
  intro fuel
  induction fuel with
  | zero =>
    intro list rng hne hlen
    exact absurd (List.length_eq_zero.1 (Nat.le_zero.1 hlen)) hne
  | succ fuel ih =>
    intro list rng hne hlen
    obtain ⟨cmp, hcmp, hcmperr⟩ := box_compare_valid_axis (F := F) _
      (axis_of_draw _ (hr rng).1 (hr rng).2)
    rw [bvh_node.construct]
    simp only [hcmp]
    cases hs : qsort cmp list with
    | error e =>
      simp only []
      right
      obtain ⟨a, ha, b, hb, hab⟩ := hq.fatal cmp list e hs
      obtain ⟨he, hor⟩ := hcmperr a b e hab
      refine ⟨e, rfl, by rw [he]; decide, ?_⟩
      rcases hor with h | h
      · exact ⟨a, ha, Or.inl h⟩
      · exact ⟨b, hb, Or.inl h⟩
    | ok sorted =>
      simp only []
      have hperm := hq.perm cmp list sorted hs
      match sorted, hperm with
      | [], hperm => exact absurd hperm.symm.eq_nil hne
      | [e], hperm =>
        simp only [bvh_node.bounding_box]
        cases hb : e.bounding_box time0 time1 with
        | none =>
          right
          exact ⟨_, rfl, by decide, e, hperm.subset (List.mem_singleton_self e), Or.inr hb⟩
        | some b =>
          left
          exact ⟨_, _, _, rfl, hperm, built.one e b hb⟩
      | [e0, e1], hperm =>
        simp only [bvh_node.bounding_box]
        cases hb0 : e0.bounding_box time0 time1 with
        | none =>
          right
          exact ⟨_, rfl, by decide, e0, hperm.subset (List.mem_cons_self _ _), Or.inr hb0⟩
        | some b0 =>
          cases hb1 : e1.bounding_box time0 time1 with
          | none =>
            right
            exact ⟨_, rfl, by decide, e1,
              hperm.subset (List.mem_cons_of_mem _ (List.mem_singleton_self e1)), Or.inr hb1⟩
          | some b1 =>
            left
            exact ⟨_, _, _, rfl, hperm, built.two e0 e1 b0 b1 hb0 hb1⟩
      | e0 :: e1 :: e2 :: rest, hperm =>
        simp only []
        have hlen2 : (e0 :: e1 :: e2 :: rest).length ≤ fuel + 1 := hperm.length_eq ▸ hlen
        have hn : (e0 :: e1 :: e2 :: rest).length = rest.length + 3 := rfl
        have htake : (List.take ((e0 :: e1 :: e2 :: rest).length / 2)
            (e0 :: e1 :: e2 :: rest)).length = (e0 :: e1 :: e2 :: rest).length / 2 := by
          rw [List.length_take]; omega
        have hdrop : (List.drop ((e0 :: e1 :: e2 :: rest).length / 2)
            (e0 :: e1 :: e2 :: rest)).length =
            (e0 :: e1 :: e2 :: rest).length - (e0 :: e1 :: e2 :: rest).length / 2 := by
          rw [List.length_drop]
        have hne0 : List.take ((e0 :: e1 :: e2 :: rest).length / 2)
            (e0 :: e1 :: e2 :: rest) ≠ [] := by
          intro h
          have := congrArg List.length h
          rw [htake] at this
          simp only [List.length_nil] at this
          omega
        have hne1 : List.drop ((e0 :: e1 :: e2 :: rest).length / 2)
            (e0 :: e1 :: e2 :: rest) ≠ [] := by
          intro h
          have := congrArg List.length h
          rw [hdrop] at this
          simp only [List.length_nil] at this
          omega
        rcases ih _ (randf rng).2 hne0 (by rw [htake]; omega) with
          ⟨L, l0, g0, hL, hp0, hb0⟩ | ⟨e, hL, hnax, o, ho, hor⟩
        · rw [hL]
          simp only []
          rcases ih _ g0 hne1 (by rw [hdrop]; omega) with
            ⟨R, l1, g1, hR, hp1, hb1⟩ | ⟨e, hR, hnax, o, ho, hor⟩
          · rw [hR]
            simp only []
            obtain ⟨bl, hbl⟩ := built_root_box hb0
            obtain ⟨br, hbr⟩ := built_root_box hb1
            rw [hbl, hbr]
            simp only []
            left
            refine ⟨_, _, _, rfl, ?_, ?_⟩
            · refine List.Perm.trans (List.Perm.append hp0 hp1) ?_
              rw [List.take_append_drop]
              exact hperm
            · refine built.many l0 l1 L R bl br ?_ ?_ hb0 hb1 (hbl _ _) (hbr _ _)
              · rw [hp0.length_eq, hp1.length_eq, htake, hdrop]; omega
              · rw [hp0.length_eq, hp1.length_eq, htake, hdrop]; omega
          · rw [hR]
            simp only []
            right
            exact ⟨e, rfl, hnax, o, hperm.subset (List.mem_of_mem_drop ho), hor⟩
        · rw [hL]
          simp only []
          right
          exact ⟨e, rfl, hnax, o, hperm.subset (List.mem_of_mem_take ho), hor⟩


omit [Sub F] [Zero F]

/-- Every element of the array of a completed construction has a bounding box. -/
theorem built_elements_boxed {time0 time1 : F} {l : List (scene_object F)}
    {b : bvh_node F} (h : built time0 time1 l b) :
    ∀ o ∈ l, ∃ box, o.bounding_box time0 time1 = some box := by
  induction h with
  | one e b0 hb =>
    intro o ho
    rw [List.mem_singleton.1 ho]
    exact ⟨b0, hb⟩
  | two e0 e1 b0 b1 hb0 hb1 =>
    intro o ho
    simp only [List.mem_cons, List.mem_singleton, List.not_mem_nil, or_false] at ho
    rcases ho with rfl | rfl
    · exact ⟨b0, hb0⟩
    · exact ⟨b1, hb1⟩
  | many l0 l1 left right b0 b1 _ _ _ _ _ _ ih0 ih1 =>
    intro o ho
    rcases List.mem_append.1 ho with h | h
    · exact ih0 o h
    · exact ih1 o h

/-- The array of a completed construction is not empty. -/
theorem built_length_pos {time0 time1 : F} {l : List (scene_object F)}
    {b : bvh_node F} (h : built time0 time1 l b) : 0 < l.length := by
  cases h with
  | one e b0 _ => simp
  | two e0 e1 b0 b1 _ _ => simp
  | many l0 l1 left right b0 b1 h2 _ _ _ _ _ => rw [List.length_append]; omega

/-- The logical leaves of a completed construction, read left to right, are the
array as the constructor left it. -/
theorem built_logical_leaves {time0 time1 : F} {l : List (scene_object F)}
    {b : bvh_node F} (h : built time0 time1 l b) : b.logical_leaves l.length = l := by
  induction h with
  | one e b0 _ => simp [bvh_node.logical_leaves]
  | two e0 e1 b0 b1 _ _ => simp [bvh_node.logical_leaves]
  | many l0 l1 left right b0 b1 h2 hhalf _ _ _ _ ih0 ih1 =>
    have hn1 : (l0 ++ l1).length ≠ 1 := by rw [List.length_append]; omega
    have hl : (l0 ++ l1).length / 2 = l0.length := by
      rw [List.length_append]; exact hhalf.symm
    have hr : (l0 ++ l1).length - l0.length = l1.length := by
      rw [List.length_append]; omega
    rw [bvh_node.logical_leaves, if_neg hn1, hl, hr, ih0, ih1]

/-- The child pointers of a completed construction point to the elements of the
array, and to all of them. -/
theorem built_leaves {time0 time1 : F} {l : List (scene_object F)}
    {b : bvh_node F} (h : built time0 time1 l b) : ∀ o, o ∈ b.leaves ↔ o ∈ l := by
  induction h with
  | one e b0 _ => intro o; simp [bvh_node.leaves]
  | two e0 e1 b0 b1 _ _ => intro o; simp [bvh_node.leaves]
  | many l0 l1 left right b0 b1 _ _ _ _ _ _ ih0 ih1 =>
    intro o
    simp only [bvh_node.leaves, List.mem_append, ih0 o, ih1 o]

/-- In a completed construction every `bvh_node` stores the union of the boxes of its
two children. -/
theorem built_nodes {time0 time1 : F} {l : List (scene_object F)}
    {b : bvh_node F} (h : built time0 time1 l b) :
    ∀ m ∈ b.nodes, ∃ left right box b0 b1, m = .node left right box ∧
      left.bounding_box time0 time1 = some b0 ∧ right.bounding_box time0 time1 = some b1 ∧
      box = surrounding_box b0 b1 := by
  induction h with
  | one e b0 hb =>
    intro m hm
    simp only [bvh_node.nodes, List.append_nil, List.mem_singleton] at hm
    exact ⟨_, _, _, b0, b0, hm, hb, hb, rfl⟩
  | two e0 e1 b0 b1 hb0 hb1 =>
    intro m hm
    simp only [bvh_node.nodes, List.append_nil, List.mem_singleton] at hm
    exact ⟨_, _, _, b0, b1, hm, hb0, hb1, rfl⟩
  | many l0 l1 left right b0 b1 _ _ _ _ hb0 hb1 ih0 ih1 =>
    intro m hm
    simp only [bvh_node.nodes, List.mem_cons, List.mem_append] at hm
    rcases hm with rfl | hm | hm
    · exact ⟨_, _, _, b0, b1, rfl, hb0, hb1, rfl⟩
    · exact ih0 m hm
    · exact ih1 m hm


/-! ### Unions of boxes -/

theorem surrounding_box_comm (a b : aabb F) : surrounding_box a b = surrounding_box b a := by
  simp [surrounding_box, vec3.min, vec3.max, min_comm, max_comm]

theorem surrounding_box_assoc (a b c : aabb F) :
    surrounding_box (surrounding_box a b) c = surrounding_box a (surrounding_box b c) := by
  simp [surrounding_box, vec3.min, vec3.max, min_assoc, max_assoc]

theorem surrounding_box_self (a : aabb F) : surrounding_box a a = a := by
  obtain ⟨⟨x0, y0, z0⟩, ⟨x1, y1, z1⟩⟩ := a
  simp [surrounding_box, vec3.min, vec3.max]

theorem surrounding_box_empty [BoundedOrder F] (a : aabb F) :
    surrounding_box a ⟨⟨⊤, ⊤, ⊤⟩, ⟨⊥, ⊥, ⊥⟩⟩ = a := by
  obtain ⟨⟨x0, y0, z0⟩, ⟨x1, y1, z1⟩⟩ := a
  simp [surrounding_box, vec3.min, vec3.max]

theorem inside_refl (a : aabb F) : aabb.inside a a :=
  ⟨⟨le_refl _, le_refl _, le_refl _⟩, ⟨le_refl _, le_refl _, le_refl _⟩⟩

theorem inside_trans {a b c : aabb F} (h : aabb.inside a b) (h1 : aabb.inside b c) :
    aabb.inside a c :=
  ⟨⟨le_trans h1.1.1 h.1.1, le_trans h1.1.2.1 h.1.2.1, le_trans h1.1.2.2 h.1.2.2⟩,
    ⟨le_trans h.2.1 h1.2.1, le_trans h.2.2.1 h1.2.2.1, le_trans h.2.2.2 h1.2.2.2⟩⟩

theorem inside_surrounding_left (a b : aabb F) : aabb.inside a (surrounding_box a b) :=
  ⟨⟨min_le_left _ _, min_le_left _ _, min_le_left _ _⟩,
    ⟨le_max_left _ _, le_max_left _ _, le_max_left _ _⟩⟩

theorem inside_surrounding_right (a b : aabb F) : aabb.inside b (surrounding_box a b) :=
  ⟨⟨min_le_right _ _, min_le_right _ _, min_le_right _ _⟩,
    ⟨le_max_right _ _, le_max_right _ _, le_max_right _ _⟩⟩

variable [BoundedOrder F]

theorem union_all_cons (a : aabb F) (l : List (aabb F)) :
    union_all (a :: l) = surrounding_box a (union_all l) := rfl

theorem union_all_append (l0 l1 : List (aabb F)) :
    union_all (l0 ++ l1) = surrounding_box (union_all l0) (union_all l1) := by
  induction l0 with
  | nil =>
    show union_all l1 = surrounding_box ⟨⟨⊤, ⊤, ⊤⟩, ⟨⊥, ⊥, ⊥⟩⟩ (union_all l1)
    rw [surrounding_box_comm, surrounding_box_empty]
  | cons a rest ih =>
    rw [List.cons_append, union_all_cons, union_all_cons, ih, surrounding_box_assoc]

theorem union_all_perm {l0 l1 : List (aabb F)} (h : l0.Perm l1) :
    union_all l0 = union_all l1 := by
  induction h with
  | nil => rfl
  | cons a _ ih => rw [union_all_cons, union_all_cons, ih]
  | swap a b l =>
    rw [union_all_cons, union_all_cons, union_all_cons, union_all_cons,
      ← surrounding_box_assoc, ← surrounding_box_assoc, surrounding_box_comm b a]
  | trans _ _ ih0 ih1 => rw [ih0, ih1]

theorem inside_union_all (l : List (aabb F)) : ∀ a ∈ l, aabb.inside a (union_all l) := by
  induction l with
  | nil => intro a ha; cases ha
  | cons c rest ih =>
    intro a ha
    rw [union_all_cons]
    rcases List.mem_cons.1 ha with rfl | hin
    · exact inside_surrounding_left _ _
    · exact inside_trans (ih a hin) (inside_surrounding_right _ _)

/-- The scan of the constructor `object_list::object_list` over children that all have
boxes adds the union of their boxes to the accumulated corners. -/
theorem box_loop_all_boxed (time0 time1 : F) (l : List (scene_object F))
    (hb : ∀ o ∈ l, ∃ box, o.bounding_box time0 time1 = some box) :
    ∀ minbb maxbb : vec3 F, object_list.box_loop time0 time1 l minbb maxbb =
      surrounding_box ⟨minbb, maxbb⟩ (union_all (element_boxes l time0 time1)) := by
  induction l with
  | nil =>
    intro minbb maxbb
    show (⟨minbb, maxbb⟩ : aabb F) = surrounding_box ⟨minbb, maxbb⟩ ⟨⟨⊤, ⊤, ⊤⟩, ⟨⊥, ⊥, ⊥⟩⟩
    rw [surrounding_box_empty]
  | cons o rest ih =>
    intro minbb maxbb
    obtain ⟨c, hc⟩ := hb o (List.mem_cons_self _ _)
    have hrest : ∀ o1 ∈ rest, ∃ box, o1.bounding_box time0 time1 = some box :=
      fun o1 h1 => hb o1 (List.mem_cons_of_mem _ h1)
    have heb : element_boxes (o :: rest) time0 time1 = c :: element_boxes rest time0 time1 := by
      simp [element_boxes, List.filterMap_cons, hc]
    rw [heb, union_all_cons, ← surrounding_box_assoc]
    simp only [object_list.box_loop, hc]
    exact ih hrest _ _

/-- The box stored by the aggregate over children that all have boxes is the union of
their boxes. -/
theorem construct_box_all_boxed (time0 time1 : F) (l : List (scene_object F))
    (hb : ∀ o ∈ l, ∃ box, o.bounding_box time0 time1 = some box) :
    (object_list.construct l time0 time1).box =
      union_all (element_boxes l time0 time1) := by
  show object_list.box_loop time0 time1 l ⟨⊤, ⊤, ⊤⟩ ⟨⊥, ⊥, ⊥⟩ = _
  rw [box_loop_all_boxed time0 time1 l hb, surrounding_box_comm, surrounding_box_empty]

/-- The box of the root of a completed construction is the union of the boxes of the
elements of the array. -/
theorem built_root_union {time0 time1 : F} {l : List (scene_object F)}
    {b : bvh_node F} (h : built time0 time1 l b) :
    b.bounding_box time0 time1 = some (union_all (element_boxes l time0 time1)) := by
  induction h with
  | one e b0 hb =>
    have heb : element_boxes [e] time0 time1 = [b0] := by
      simp [element_boxes, List.filterMap_cons, hb]
    rw [heb, union_all_cons]
    show some (surrounding_box b0 b0) = some (surrounding_box b0 ⟨⟨⊤, ⊤, ⊤⟩, ⟨⊥, ⊥, ⊥⟩⟩)
    rw [surrounding_box_self, surrounding_box_empty]
  | two e0 e1 b0 b1 hb0 hb1 =>
    have heb : element_boxes [e0, e1] time0 time1 = [b0, b1] := by
      simp [element_boxes, List.filterMap_cons, hb0, hb1]
    rw [heb, union_all_cons, union_all_cons]
    show some (surrounding_box b0 b1) =
      some (surrounding_box b0 (surrounding_box b1 ⟨⟨⊤, ⊤, ⊤⟩, ⟨⊥, ⊥, ⊥⟩⟩))
    rw [surrounding_box_empty]
  | many l0 l1 left right b0 b1 _ _ _ _ hb0 hb1 ih0 ih1 =>
    have heb : element_boxes (l0 ++ l1) time0 time1 =
        element_boxes l0 time0 time1 ++ element_boxes l1 time0 time1 := by
      simp [element_boxes, List.filterMap_append]
    rw [heb, union_all_append]
    rw [hb0] at ih0
    rw [hb1] at ih1
    rw [← Option.some.inj ih0, ← Option.some.inj ih1]
    rfl

omit [LinearOrder F] [BoundedOrder F] in
/-- The boxes of a rearranged array are the rearranged boxes. -/
theorem element_boxes_perm {l0 l1 : List (scene_object F)} (h : l0.Perm l1)
    (time0 time1 : F) : (element_boxes l0 time0 time1).Perm (element_boxes l1 time0 time1) :=
  List.Perm.filterMap _ h

omit [LinearOrder F] [BoundedOrder F] in
/-- The box of an element that has one is among the boxes of the array. -/
theorem mem_element_boxes {l : List (scene_object F)} {o : scene_object F}
    {time0 time1 : F} {box : aabb F} (ho : o ∈ l) (hb : o.bounding_box time0 time1 = some box) :
    box ∈ element_boxes l time0 time1 :=
  List.mem_filterMap.2 ⟨o, ho, hb⟩


/-! ### Queries -/

omit [BoundedOrder F] in
/-- A leaf that obeys the contract answers the nearest-hit query over itself. -/
theorem leaf_nearest {o : scene_object F} (hc : leaf_contract o) (r : ray F)
    (tmin tmax : F) (rec : hit_record F) :
    nearest [o] r tmin tmax (o.hit r tmin tmax rec).1 (o.hit r tmin tmax rec).2.t := by
  refine ⟨?_, ?_⟩
  · rw [leaf_hit_iff_root hc]
    simp
  · intro hok
    refine ⟨hc.range r tmin tmax rec hok, ⟨o, List.mem_singleton_self o, tmin, tmax, rec, hok, rfl⟩, ?_⟩
    intro o1 ho1 s hs hlo hhi
    rw [List.mem_singleton.1 ho1] at hs
    exact hc.closest r tmin tmax rec s hok hs hlo hhi

omit [BoundedOrder F] in
/-- The merge of `bvh_node::hit`: if the two children answer the nearest-hit query over
their arrays, and the box test of the node passes whenever some element has a root in
the interval, the node answers the query over both arrays. -/
theorem node_hit_nearest (bh : box_test F) (stack : hit_record F) (left right : bvh_node F)
    (box : aabb F) (l0 l1 : List (scene_object F)) (r : ray F) (tmin tmax : F)
    (rec : hit_record F)
    (h0 : nearest l0 r tmin tmax (left.hit bh stack r tmin tmax stack).1
      (left.hit bh stack r tmin tmax stack).2.t)
    (h1 : nearest l1 r tmin tmax (right.hit bh stack r tmin tmax stack).1
      (right.hit bh stack r tmin tmax stack).2.t)
    (hcover : (∃ o ∈ l0 ++ l1, ∃ s, o.root r s ∧ tmin ≤ s ∧ s ≤ tmax) →
      bh box r tmin tmax = true) :
    nearest (l0 ++ l1) r tmin tmax
      ((bvh_node.node left right box).hit bh stack r tmin tmax rec).1
      ((bvh_node.node left right box).hit bh stack r tmin tmax rec).2.t := by
  have hsplit : (∃ o ∈ l0 ++ l1, ∃ s, o.root r s ∧ tmin ≤ s ∧ s ≤ tmax) ↔
      (left.hit bh stack r tmin tmax stack).1 = true ∨
        (right.hit bh stack r tmin tmax stack).1 = true := by
    rw [h0.1, h1.1]
    constructor
    · rintro ⟨o, ho, hex⟩
      rcases List.mem_append.1 ho with h | h
      · exact Or.inl ⟨o, h, hex⟩
      · exact Or.inr ⟨o, h, hex⟩
    · rintro (⟨o, ho, hex⟩ | ⟨o, ho, hex⟩)
      · exact ⟨o, List.mem_append_left _ ho, hex⟩
      · exact ⟨o, List.mem_append_right _ ho, hex⟩
  simp only [bvh_node.hit]
  by_cases hbox : bh box r tmin tmax = true
  · rw [if_pos hbox]
    cases hl : (left.hit bh stack r tmin tmax stack).1 <;>
      cases hr : (right.hit bh stack r tmin tmax stack).1
    · -- neither child hit
      simp only [Bool.or_self, Bool.not_false, if_true]
      refine ⟨?_, fun h => by cases h⟩
      rw [hsplit, hl, hr]
      simp
    · -- only the right child hit
      simp only [Bool.or_true, Bool.not_true, Bool.false_and, if_true]
      simp only [Bool.false_eq_true, if_false]
      refine ⟨by rw [hsplit, hl, hr]; simp, fun _ => ?_⟩
      obtain ⟨hrg, ⟨o, ho, hroot⟩, hmin⟩ := h1.2 hr
      refine ⟨hrg, ⟨o, List.mem_append_right _ ho, hroot⟩, ?_⟩
      intro o1 ho1 s hs hlo hhi
      rcases List.mem_append.1 ho1 with h | h
      · have : (left.hit bh stack r tmin tmax stack).1 = true :=
          h0.1.2 ⟨o1, h, s, hs, hlo, hhi⟩
        rw [hl] at this; cases this
      · exact hmin o1 h s hs hlo hhi
    · -- only the left child hit
      simp only [Bool.or_false, Bool.not_true, Bool.and_false, if_true]
      simp only [Bool.false_eq_true, if_false]
      refine ⟨by rw [hsplit, hl, hr]; simp, fun _ => ?_⟩
      obtain ⟨hrg, ⟨o, ho, hroot⟩, hmin⟩ := h0.2 hl
      refine ⟨hrg, ⟨o, List.mem_append_left _ ho, hroot⟩, ?_⟩
      intro o1 ho1 s hs hlo hhi
      rcases List.mem_append.1 ho1 with h | h
      · exact hmin o1 h s hs hlo hhi
      · have : (right.hit bh stack r tmin tmax stack).1 = true :=
          h1.1.2 ⟨o1, h, s, hs, hlo, hhi⟩
        rw [hr] at this; cases this
    · -- both children hit
      simp only [Bool.or_self, Bool.not_true, Bool.and_self, if_true]
      simp only [Bool.false_eq_true, if_false]
      obtain ⟨hrg0, ⟨o0, ho0, hroot0⟩, hmin0⟩ := h0.2 hl
      obtain ⟨hrg1, ⟨o1, ho1, hroot1⟩, hmin1⟩ := h1.2 hr
      by_cases hlt : (left.hit bh stack r tmin tmax stack).2.t <
          (right.hit bh stack r tmin tmax stack).2.t
      · rw [if_pos hlt]
        refine ⟨by rw [hsplit, hl, hr]; simp, fun _ => ?_⟩
        refine ⟨hrg0, ⟨o0, List.mem_append_left _ ho0, hroot0⟩, ?_⟩
        intro o2 ho2 s hs hlo hhi
        rcases List.mem_append.1 ho2 with h | h
        · exact hmin0 o2 h s hs hlo hhi
        · exact le_trans (le_of_lt hlt) (hmin1 o2 h s hs hlo hhi)
      · rw [if_neg hlt]
        refine ⟨by rw [hsplit, hl, hr]; simp, fun _ => ?_⟩
        refine ⟨hrg1, ⟨o1, List.mem_append_right _ ho1, hroot1⟩, ?_⟩
        intro o2 ho2 s hs hlo hhi
        rcases List.mem_append.1 ho2 with h | h
        · exact le_trans (not_lt.1 hlt) (hmin0 o2 h s hs hlo hhi)
        · exact hmin1 o2 h s hs hlo hhi
  · rw [if_neg hbox]
    refine ⟨?_, fun h => by cases h⟩
    constructor
    · intro h; cases h
    · intro h; exact absurd (hcover h) hbox

/-- A leaf with a root in the interval makes any box containing the union of the
element boxes pass a monotone box test. -/
theorem cover_of_contracts (bh : box_test F) (hm : box_test.monotone bh)
    (time0 time1 : F) (l : List (scene_object F))
    (hb : ∀ o ∈ l, ∃ box, o.bounding_box time0 time1 = some box)
    (hc : ∀ o ∈ l, leaf_contract o) (hbc : ∀ o ∈ l, box_contract bh time0 time1 o)
    (r : ray F) (tmin tmax : F)
    (hex : ∃ o ∈ l, ∃ s, o.root r s ∧ tmin ≤ s ∧ s ≤ tmax) :
    bh (union_all (element_boxes l time0 time1)) r tmin tmax = true := by
  obtain ⟨o, ho, s, hs, hlo, hhi⟩ := hex
  obtain ⟨box, hbox⟩ := hb o ho
  have hrec : hit_record F := ⟨s, ⟨s, s, s⟩, ⟨s, s, s⟩, 0⟩
  have hhit := (hc o ho).complete r tmin tmax hrec s hs hlo hhi
  have h1 := hbc o ho box r tmin tmax hrec hbox hhit
  exact hm _ _ r tmin tmax (inside_union_all _ box (mem_element_boxes ho hbox)) h1

/-- A completed construction over leaves that obey the contracts answers the
nearest-hit query over the array. -/
theorem built_hit_nearest (bh : box_test F) (hm : box_test.monotone bh)
    (stack : hit_record F) {time0 time1 : F} {l : List (scene_object F)} {b : bvh_node F}
    (h : built time0 time1 l b) (hc : ∀ o ∈ l, leaf_contract o)
    (hbc : ∀ o ∈ l, box_contract bh time0 time1 o) (r : ray F) (tmin tmax : F) :
    ∀ rec, nearest l r tmin tmax (b.hit bh stack r tmin tmax rec).1
      (b.hit bh stack r tmin tmax rec).2.t := by
  induction h with
  | one e b0 hb =>
    intro rec
    have he := leaf_nearest (hc e (List.mem_singleton_self e)) r tmin tmax stack
    have hcov : (∃ o ∈ [e] ++ [e], ∃ s, o.root r s ∧ tmin ≤ s ∧ s ≤ tmax) →
        bh (surrounding_box b0 b0) r tmin tmax = true := by
      rintro ⟨o, ho, s, hs, hlo, hhi⟩
      have hoe : o = e := by simpa using ho
      subst hoe
      rw [surrounding_box_self]
      have hhit := (hc o (List.mem_singleton_self o)).complete r tmin tmax stack s hs hlo hhi
      exact hbc o (List.mem_singleton_self o) b0 r tmin tmax stack hb hhit
    have hn := node_hit_nearest bh stack (.object e) (.object e) (surrounding_box b0 b0)
      [e] [e] r tmin tmax rec he he hcov
    exact nearest_congr [e] (by intro o; simp) hn
  | two e0 e1 b0 b1 hb0 hb1 =>
    intro rec
    have he0 := leaf_nearest (hc e0 (List.mem_cons_self _ _)) r tmin tmax stack
    have he1 := leaf_nearest
      (hc e1 (List.mem_cons_of_mem _ (List.mem_singleton_self e1))) r tmin tmax stack
    have hcov : (∃ o ∈ [e0] ++ [e1], ∃ s, o.root r s ∧ tmin ≤ s ∧ s ≤ tmax) →
        bh (surrounding_box b0 b1) r tmin tmax = true := by
      rintro ⟨o, ho, s, hs, hlo, hhi⟩
      have ho2 : o ∈ [e0, e1] := ho
      have hhit := (hc o ho2).complete r tmin tmax stack s hs hlo hhi
      simp only [List.mem_cons, List.mem_singleton, List.not_mem_nil, or_false] at ho2
      rcases ho2 with rfl | rfl
      · exact hm _ _ r tmin tmax (inside_surrounding_left _ _)
          (hbc o (List.mem_cons_self _ _) b0 r tmin tmax stack hb0 hhit)
      · exact hm _ _ r tmin tmax (inside_surrounding_right _ _)
          (hbc o (List.mem_cons_of_mem _ (List.mem_singleton_self o)) b1 r tmin tmax stack
            hb1 hhit)
    exact node_hit_nearest bh stack (.object e0) (.object e1) (surrounding_box b0 b1)
      [e0] [e1] r tmin tmax rec he0 he1 hcov
  | many l0 l1 left right b0 b1 h2 hhalf hbl hbr hb0 hb1 ih0 ih1 =>
    intro rec
    have hc0 : ∀ o ∈ l0, leaf_contract o := fun o ho => hc o (List.mem_append_left _ ho)
    have hc1 : ∀ o ∈ l1, leaf_contract o := fun o ho => hc o (List.mem_append_right _ ho)
    have hbc0 : ∀ o ∈ l0, box_contract bh time0 time1 o :=
      fun o ho => hbc o (List.mem_append_left _ ho)
    have hbc1 : ∀ o ∈ l1, box_contract bh time0 time1 o :=
      fun o ho => hbc o (List.mem_append_right _ ho)
    have hu0 := built_root_union hbl
    have hu1 := built_root_union hbr
    rw [hb0] at hu0
    rw [hb1] at hu1
    have hcov : (∃ o ∈ l0 ++ l1, ∃ s, o.root r s ∧ tmin ≤ s ∧ s ≤ tmax) →
        bh (surrounding_box b0 b1) r tmin tmax = true := by
      rintro ⟨o, ho, s, hs, hlo, hhi⟩
      rcases List.mem_append.1 ho with h | h
      · have := cover_of_contracts bh hm time0 time1 l0 (built_elements_boxed hbl) hc0 hbc0
          r tmin tmax ⟨o, h, s, hs, hlo, hhi⟩
        rw [← Option.some.inj hu0] at this
        exact hm _ _ r tmin tmax (inside_surrounding_left _ _) this
      · have := cover_of_contracts bh hm time0 time1 l1 (built_elements_boxed hbr) hc1 hbc1
          r tmin tmax ⟨o, h, s, hs, hlo, hhi⟩
        rw [← Option.some.inj hu1] at this
        exact hm _ _ r tmin tmax (inside_surrounding_right _ _) this
    exact node_hit_nearest bh stack left right (surrounding_box b0 b1) l0 l1 r tmin tmax rec
      (ih0 hc0 hbc0 stack) (ih1 hc1 hbc1 stack) hcov

/-- The aggregate constructed over leaves that have boxes and obey the contracts
answers the nearest-hit query over the array. -/
theorem aggregate_hit_nearest (bh : box_test F) (hm : box_test.monotone bh)
    (stack : hit_record F) (time0 time1 : F) (l : List (scene_object F))
    (hb : ∀ o ∈ l, ∃ box, o.bounding_box time0 time1 = some box)
    (hc : ∀ o ∈ l, leaf_contract o) (hbc : ∀ o ∈ l, box_contract bh time0 time1 o)
    (r : ray F) (tmin tmax : F) (rec : hit_record F) :
    nearest l r tmin tmax
      ((object_list.construct l time0 time1).hit bh stack r tmin tmax rec).1
      ((object_list.construct l time0 time1).hit bh stack r tmin tmax rec).2.t := by
  have hloop := hit_loop_nearest r tmin tmax l hc stack rec
  unfold object_list.hit
  by_cases hbox : bh (object_list.construct l time0 time1).box r tmin tmax = true
  · rw [if_pos hbox]
    exact hloop
  · rw [if_neg hbox]
    refine ⟨?_, fun h => by cases h⟩
    constructor
    · intro h; cases h
    · intro hex
      have := cover_of_contracts bh hm time0 time1 l hb hc hbc r tmin tmax hex
      rw [← construct_box_all_boxed time0 time1 l hb] at this
      exact absurd this hbox


omit [BoundedOrder F] in
/-- The nearest-hit relation in terms of the queries of the leaves on `[tmin, tmax]`. -/
theorem nearest_hits {l : List (scene_object F)} (hc : ∀ o ∈ l, leaf_contract o)
    {r : ray F} {tmin tmax : F} {ok : Bool} {t : F} (h : nearest l r tmin tmax ok t) :
    (ok = true ↔ ∃ o ∈ l, ∃ rec0, (o.hit r tmin tmax rec0).1 = true) ∧
      (ok = true → (tmin ≤ t ∧ t ≤ tmax) ∧
        (∃ o ∈ l, ∃ rec0, (o.hit r tmin tmax rec0).1 = true ∧
          (o.hit r tmin tmax rec0).2.t = t) ∧
        ∀ o ∈ l, ∀ rec0, (o.hit r tmin tmax rec0).1 = true →
          t ≤ (o.hit r tmin tmax rec0).2.t) := by
  have blank0 : hit_record F := ⟨t, ⟨t, t, t⟩, ⟨t, t, t⟩, 0⟩
  obtain ⟨h1, h2⟩ := h
  refine ⟨?_, ?_⟩
  · rw [h1]
    constructor
    · rintro ⟨o, ho, hex⟩
      exact ⟨o, ho, blank0, (leaf_hit_iff_root (hc o ho) r tmin tmax blank0).2 hex⟩
    · rintro ⟨o, ho, rec0, hhit⟩
      exact ⟨o, ho, (leaf_hit_iff_root (hc o ho) r tmin tmax rec0).1 hhit⟩
  · intro hok
    obtain ⟨hr, ⟨o, ho, hroot⟩, hmin⟩ := h2 hok
    have hhit := (hc o ho).complete r tmin tmax blank0 _ hroot hr.1 hr.2
    refine ⟨hr, ⟨o, ho, blank0, hhit, ?_⟩, ?_⟩
    · apply le_antisymm
      · exact (hc o ho).closest r tmin tmax blank0 _ hhit hroot hr.1 hr.2
      · exact hmin o ho _ ⟨tmin, tmax, blank0, hhit, rfl⟩
          ((hc o ho).range r tmin tmax blank0 hhit).1
          ((hc o ho).range r tmin tmax blank0 hhit).2
    · intro o1 ho1 rec0 hhit1
      exact hmin o1 ho1 _ ⟨tmin, tmax, rec0, hhit1, rfl⟩
        ((hc o1 ho1).range r tmin tmax rec0 hhit1).1
        ((hc o1 ho1).range r tmin tmax rec0 hhit1).2

/-! ### The concrete sort and generator -/

omit [LinearOrder F] [BoundedOrder F] in
theorem insert_by_ok (cmp : cmp_fn F) (a : scene_object F) :
    ∀ l l1, insert_by cmp a l = .ok l1 → l1.Perm (a :: l) := by
  intro l
  induction l with
  | nil =>
    intro l1 h
    simp only [insert_by] at h
    cases h
    exact List.Perm.refl _
  | cons b rest ih =>
    intro l1 h
    simp only [insert_by] at h
    cases hc : cmp a b with
    | error e => rw [hc] at h; cases h
    | ok c =>
      rw [hc] at h
      simp only at h
      split_ifs at h
      · cases h; exact List.Perm.refl _
      · cases hi : insert_by cmp a rest with
        | error e => rw [hi] at h; cases h
        | ok l2 =>
          rw [hi] at h
          cases h
          exact List.Perm.trans (List.Perm.cons b (ih l2 hi)) (List.Perm.swap a b rest)

omit [LinearOrder F] [BoundedOrder F] in
theorem insert_by_error (cmp : cmp_fn F) (a : scene_object F) :
    ∀ l e, insert_by cmp a l = .error e → ∃ b ∈ l, cmp a b = .error e := by
  intro l
  induction l with
  | nil => intro e h; simp only [insert_by] at h; cases h
  | cons b rest ih =>
    intro e h
    simp only [insert_by] at h
    cases hc : cmp a b with
    | error e1 =>
      rw [hc] at h
      cases h
      exact ⟨b, List.mem_cons_self _ _, hc⟩
    | ok c =>
      rw [hc] at h
      simp only at h
      split_ifs at h
      cases hi : insert_by cmp a rest with
      | error e1 =>
        rw [hi] at h
        cases h
        obtain ⟨b1, hb1, hcb⟩ := ih e hi
        exact ⟨b1, List.mem_cons_of_mem _ hb1, hcb⟩
      | ok l2 => rw [hi] at h; cases h

omit [LinearOrder F] [BoundedOrder F] in
theorem insertion_sort_cons (cmp : cmp_fn F) (a : scene_object F)
    (rest : List (scene_object F)) :
    insertion_sort cmp (a :: rest) =
      match insertion_sort cmp rest with
      | .error e => .error e
      | .ok sorted => insert_by cmp a sorted := rfl

omit [LinearOrder F] [BoundedOrder F] in
/-- Insertion sort meets the contract of `qsort`. -/
theorem insertion_sort_contract : sort_contract (insertion_sort : sort_fn F) := by
  have hperm : ∀ (cmp : cmp_fn F) l l1, insertion_sort cmp l = .ok l1 → l1.Perm l := by
    intro cmp l
    induction l with
    | nil => intro l1 h; cases h; exact List.Perm.refl _
    | cons a rest ih =>
      intro l1 h
      rw [insertion_sort_cons] at h
      cases hs : insertion_sort cmp rest with
      | error e => rw [hs] at h; cases h
      | ok sorted =>
        rw [hs] at h
        exact List.Perm.trans (insert_by_ok cmp a sorted l1 h) (List.Perm.cons a (ih sorted hs))
  refine ⟨hperm, ?_⟩
  intro cmp l
  induction l with
  | nil => intro e h; cases h
  | cons a rest ih =>
    intro e h
    rw [insertion_sort_cons] at h
    cases hs : insertion_sort cmp rest with
    | error e1 =>
      rw [hs] at h
      cases h
      obtain ⟨x, hx, y, hy, hxy⟩ := ih e hs
      exact ⟨x, List.mem_cons_of_mem _ hx, y, List.mem_cons_of_mem _ hy, hxy⟩
    | ok sorted =>
      rw [hs] at h
      obtain ⟨b, hb, hab⟩ := insert_by_error cmp a sorted e h
      exact ⟨a, List.mem_cons_self _ _, b,
        List.mem_cons_of_mem _ ((hperm cmp rest sorted hs).subset hb), hab⟩

/-- The cyclic generator draws from `[0, 1)`. -/
theorem cycle_randf_contract : randf_contract cycle_randf := by
  intro g
  have h3 : g % 3 < 3 := Nat.mod_lt g (by decide)
  have hq : (((g % 3 : Nat) : ℚ)) < 3 := by exact_mod_cast h3
  have hq0 : (0 : ℚ) ≤ ((g % 3 : Nat) : ℚ) := Nat.cast_nonneg _
  constructor
  · show (0 : ℚ) ≤ ((g % 3 : Nat) : ℚ) / 3
    exact div_nonneg hq0 (by norm_num)
  · show ((g % 3 : Nat) : ℚ) / 3 < 1
    rw [div_lt_one (by norm_num)]
    exact hq

/-- The primitives of `boxed_scene` have bounding boxes. -/
theorem boxed_scene_boxed (time0 time1 : level) :
    ∀ o ∈ boxed_scene, ∃ box, o.bounding_box time0 time1 = some box := by
  intro o ho
  simp only [boxed_scene, List.mem_cons, List.mem_singleton, List.not_mem_nil,
    or_false] at ho
  rcases ho with rfl | rfl | rfl <;> exact ⟨_, rfl⟩

end hierarchy

/-! ## Construction: further lemmas -/

section construction

variable {F : Type} [LinearOrder F] [Sub F] [Zero F]

/-- What a completed constructor call did: it drew an axis, sorted the array, and
either took one or two elements as children or built two children over the two parts
of the array, drawing from the generator for the left part first. -/
theorem construct_done_inv {G : Type} (qsort : sort_fn F) (randf : G → ℚ × G) (fuel : Nat)
    (list : List (scene_object F)) (time0 time1 : F) (rng : G) (b : bvh_node F)
    (l : List (scene_object F)) (g : G)
    (h : bvh_node.construct qsort randf (fuel + 1) list time0 time1 rng = .done (b, l, g)) :
    ∃ cmp sorted, box_compare (float_to_int (3 * (randf rng).1)) = .ok cmp ∧
      qsort cmp list = .ok sorted ∧
      ((∃ e box, sorted = [e] ∧ e.bounding_box time0 time1 = some box ∧
          b = .node (.object e) (.object e) (surrounding_box box box) ∧ l = [e] ∧
          g = advance randf rng) ∨
        (∃ e0 e1 b0 b1, sorted = [e0, e1] ∧ e0.bounding_box time0 time1 = some b0 ∧
          e1.bounding_box time0 time1 = some b1 ∧
          b = .node (.object e0) (.object e1) (surrounding_box b0 b1) ∧ l = [e0, e1] ∧
          g = advance randf rng) ∨
        (sorted.length ≠ 1 ∧ sorted.length ≠ 2 ∧ ∃ left l0 g0 right l1 b0 b1,
          bvh_node.construct qsort randf fuel (sorted.take (sorted.length / 2)) time0 time1
            (advance randf rng) = .done (left, l0, g0) ∧
          bvh_node.construct qsort randf fuel (sorted.drop (sorted.length / 2)) time0 time1
            g0 = .done (right, l1, g) ∧
          left.bounding_box time0 time1 = some b0 ∧
          right.bounding_box time0 time1 = some b1 ∧
          b = .node left right (surrounding_box b0 b1) ∧ l = l0 ++ l1)) := by
  rw [bvh_node.construct] at h
  cases hcmp : (box_compare (float_to_int (3 * (randf rng).1)) : Except fatal_error (cmp_fn F)) with
  | error e => rw [hcmp] at h; simp only [] at h; cases h
  | ok cmp =>
    rw [hcmp] at h
    simp only [] at h
    cases hs : qsort cmp list with
    | error e => rw [hs] at h; simp only [] at h; cases h
    | ok sorted =>
      rw [hs] at h
      simp only [] at h
      refine ⟨cmp, sorted, rfl, hs, ?_⟩
      have hrec : ∀ (hshape : ∀ e, sorted ≠ [e]) (hshape2 : ∀ e0 e1, sorted ≠ [e0, e1]),
          (match
            (match bvh_node.construct qsort randf fuel (sorted.take (sorted.length / 2))
                time0 time1 (randf rng).2 with
              | .out_of_fuel => outcome.out_of_fuel
              | .fatal e => .fatal e
              | .done (left, list_left, rng_left) =>
                match bvh_node.construct qsort randf fuel (sorted.drop (sorted.length / 2))
                    time0 time1 rng_left with
                | .out_of_fuel => .out_of_fuel
                | .fatal e => .fatal e
                | .done (right, list_right, rng_right) =>
                  .done (left, right, list_left ++ list_right, rng_right)) with
            | .out_of_fuel => outcome.out_of_fuel
            | .fatal e => .fatal e
            | .done (left, right, list_after, rng_after) =>
              match left.bounding_box time0 time1, right.bounding_box time0 time1 with
              | some box_left, some box_right =>
                .done (bvh_node.node left right (surrounding_box box_left box_right),
                  list_after, rng_after)
              | _, _ => .fatal .constructor_no_bounding_box) = .done (b, l, g) →
          ∃ left l0 g0 right l1 b0 b1,
            bvh_node.construct qsort randf fuel (sorted.take (sorted.length / 2)) time0 time1
              (advance randf rng) = .done (left, l0, g0) ∧
            bvh_node.construct qsort randf fuel (sorted.drop (sorted.length / 2)) time0 time1
              g0 = .done (right, l1, g) ∧
            left.bounding_box time0 time1 = some b0 ∧
            right.bounding_box time0 time1 = some b1 ∧
            b = .node left right (surrounding_box b0 b1) ∧ l = l0 ++ l1 := by
        intro _ _ h
        cases hL : bvh_node.construct qsort randf fuel (sorted.take (sorted.length / 2))
            time0 time1 (randf rng).2 with
        | out_of_fuel => rw [hL] at h; simp only [] at h; cases h
        | fatal e => rw [hL] at h; simp only [] at h; cases h
        | done resL =>
          obtain ⟨left, l0, g0⟩ := resL
          rw [hL] at h
          simp only [] at h
          cases hR : bvh_node.construct qsort randf fuel (sorted.drop (sorted.length / 2))
              time0 time1 g0 with
          | out_of_fuel => rw [hR] at h; simp only [] at h; cases h
          | fatal e => rw [hR] at h; simp only [] at h; cases h
          | done resR =>
            obtain ⟨right, l1, g1⟩ := resR
            rw [hR] at h
            simp only [] at h
            cases hbl : left.bounding_box time0 time1 with
            | none => rw [hbl] at h; simp only [] at h; cases h
            | some b0 =>
              cases hbr : right.bounding_box time0 time1 with
              | none => rw [hbl, hbr] at h; simp only [] at h; cases h
              | some b1 =>
                rw [hbl, hbr] at h
                simp only [outcome.done.injEq, Prod.mk.injEq] at h
                obtain ⟨hb, hl, hg⟩ := h
                exact ⟨left, l0, g0, right, l1, b0, b1, hL, hg ▸ hR, hbl, hbr, hb.symm,
                  hl.symm⟩
      match sorted, h, hrec with
      | [], h, hrec =>
        right; right
        exact ⟨by simp, by simp, hrec (by intro e; simp) (by intro e0 e1; simp) h⟩
      | [e], h, _ =>
        left
        simp only [bvh_node.bounding_box] at h
        cases hb : e.bounding_box time0 time1 with
        | none => rw [hb] at h; simp only [] at h; cases h
        | some box =>
          rw [hb] at h
          simp only [outcome.done.injEq, Prod.mk.injEq] at h
          obtain ⟨hb1, hl, hg⟩ := h
          exact ⟨e, box, rfl, hb, hb1.symm, hl.symm, hg.symm⟩
      | [e0, e1], h, _ =>
        right; left
        simp only [bvh_node.bounding_box] at h
        cases hb0 : e0.bounding_box time0 time1 with
        | none => rw [hb0] at h; simp only [] at h; cases h
        | some b0 =>
          cases hb1 : e1.bounding_box time0 time1 with
          | none => rw [hb0, hb1] at h; simp only [] at h; cases h
          | some b1 =>
            rw [hb0, hb1] at h
            simp only [outcome.done.injEq, Prod.mk.injEq] at h
            obtain ⟨hb, hl, hg⟩ := h
            exact ⟨e0, e1, b0, b1, rfl, hb0, hb1, hb.symm, hl.symm, hg.symm⟩
      | e0 :: e1 :: e2 :: rest, h, hrec =>
        right; right
        exact ⟨by simp, by simp, hrec (by intro e; simp) (by intro e0 e1; simp) h⟩

omit [LinearOrder F] [Sub F] [Zero F] in
theorem draws_base {n : Nat} (h : n ≤ 2) : draws n = 1 := by
  rw [draws, dif_pos h]

omit [LinearOrder F] [Sub F] [Zero F] in
theorem draws_step {n : Nat} (h : 2 < n) :
    draws n = 1 + draws (n / 2) + draws (n - n / 2) := by
  rw [draws, dif_neg (by omega)]

/-- A completed constructor call on a non-empty array, with any generator: the array
it leaves is a rearrangement of the input, the hierarchy is the one built over it, the
generator has advanced by `draws n` draws, and there is one `bvh_node` per draw. -/
theorem construct_done_spec {G : Type} (qsort : sort_fn F) (randf : G → ℚ × G)
    (hq : sort_contract qsort) (time0 time1 : F) :
    ∀ (fuel : Nat) (list : List (scene_object F)) (rng : G) (b : bvh_node F)
      (l : List (scene_object F)) (g : G), list ≠ [] →
      bvh_node.construct qsort randf fuel list time0 time1 rng = .done (b, l, g) →
      l.Perm list ∧ built time0 time1 l b ∧
        g = (advance randf)^[draws list.length] rng ∧
        b.nodes.length = draws list.length := by
  intro fuel
  induction fuel with
  | zero =>
    intro list rng b l g _ h
    rw [bvh_node.construct] at h
    cases h
  | succ fuel ih =>
    intro list rng b l g hne h
    obtain ⟨cmp, sorted, _, hs, hcase⟩ :=
      construct_done_inv qsort randf fuel list time0 time1 rng b l g h
    have hperm := hq.perm cmp list sorted hs
    have hlen := hperm.length_eq
    rcases hcase with ⟨e, box, rfl, hb, rfl, rfl, rfl⟩ |
      ⟨e0, e1, b0, b1, rfl, hb0, hb1, rfl, rfl, rfl⟩ |
      ⟨hn1, hn2, left, l0, g0, right, l1, b0, b1, hL, hR, hbl, hbr, rfl, rfl⟩
    · have h1 : list.length = 1 := hlen.symm
      refine ⟨hperm, built.one e box hb, ?_, ?_⟩
      · rw [h1, draws_base (by omega)]; rfl
      · rw [h1, draws_base (by omega)]; rfl
    · have h2 : list.length = 2 := hlen.symm
      refine ⟨hperm, built.two e0 e1 b0 b1 hb0 hb1, ?_, ?_⟩
      · rw [h2, draws_base (by omega)]; rfl
      · rw [h2, draws_base (by omega)]; rfl
    · have hpos : 0 < sorted.length := by
        rw [hlen]; exact List.length_pos.2 hne
      have h3 : 2 < sorted.length := by omega
      have htake : (sorted.take (sorted.length / 2)).length = sorted.length / 2 := by
        rw [List.length_take]; omega
      have hdrop : (sorted.drop (sorted.length / 2)).length =
          sorted.length - sorted.length / 2 := by
        rw [List.length_drop]
      have hne0 : sorted.take (sorted.length / 2) ≠ [] := by
        intro hnil
        have := congrArg List.length hnil
        rw [htake] at this
        simp only [List.length_nil] at this
        omega
      have hne1 : sorted.drop (sorted.length / 2) ≠ [] := by
        intro hnil
        have := congrArg List.length hnil
        rw [hdrop] at this
        simp only [List.length_nil] at this
        omega
      obtain ⟨hp0, hbuilt0, hg0, hnodes0⟩ := ih _ _ left l0 g0 hne0 hL
      obtain ⟨hp1, hbuilt1, hg1, hnodes1⟩ := ih _ _ right l1 g hne1 hR
      rw [htake] at hg0 hnodes0
      rw [hdrop] at hg1 hnodes1
      have hd := draws_step h3
      refine ⟨?_, ?_, ?_, ?_⟩
      · refine List.Perm.trans (List.Perm.append hp0 hp1) ?_
        rw [List.take_append_drop]
        exact hperm
      · refine built.many l0 l1 left right b0 b1 ?_ ?_ hbuilt0 hbuilt1 hbl hbr
        · rw [hp0.length_eq, hp1.length_eq, htake, hdrop]; omega
        · rw [hp0.length_eq, hp1.length_eq, htake, hdrop]; omega
      · rw [hg1, hg0, ← hlen]
        have hsum : draws sorted.length =
            draws (sorted.length - sorted.length / 2) + (draws (sorted.length / 2) + 1) := by
          rw [hd]; omega
        rw [hsum, Function.iterate_add_apply, Function.iterate_add_apply]
        rfl
      · rw [← hlen, hd]
        simp only [bvh_node.nodes, List.length_cons, List.length_append, hnodes0, hnodes1]
        omega

end construction

/-! ## Queries, boxes and comparators: further lemmas -/

section further

variable {F : Type}

/-- The counted loop of `object_list::hit` computes the loop state of the plain loop
and adds one visit per remaining child. -/
theorem hit_loop_counted_eq (r : ray F) (tmin : F) (l : List (scene_object F)) :
    ∀ st visits, object_list.hit_loop_counted r tmin l (st, visits) =
      (object_list.hit_loop r tmin l st, visits + l.length) := by
  induction l with
  | nil => intro st visits; rfl
  | cons o rest ih =>
    intro st visits
    obtain ⟨hit, closest, cur_rec, rec⟩ := st
    simp only [object_list.hit_loop_counted, object_list.hit_loop, List.length_cons]
    split
    · rw [ih]; congr 1; omega
    · rw [ih]; congr 1; omega

/-- The counted `object_list::hit` returns what `object_list::hit` returns. -/
theorem object_list_hit_counted_fst (bh : box_test F) (stack : hit_record F)
    (ol : object_list F) (r : ray F) (tmin tmax : F) (rec : hit_record F) :
    (ol.hit_counted bh stack r tmin tmax rec).1 = ol.hit bh stack r tmin tmax rec := by
  unfold object_list.hit_counted object_list.hit
  split
  · simp only [hit_loop_counted_eq]
  · rfl

/-- When the box test of the aggregate passes, `object_list::hit` calls `hit` on every
child, once each, and a child whose `hit` succeeds on `[tmin, tmax]`, with or without
a bounding box, makes it report a hit. -/
theorem object_list_hit_visits_all (bh : box_test F) (stack : hit_record F)
    (ol : object_list F) (r : ray F) (tmin tmax : F) (rec : hit_record F)
    (hbox : bh ol.box r tmin tmax = true) :
    (ol.hit_counted bh stack r tmin tmax rec).2 = ol.list.length ∧
      ((∃ o ∈ ol.list, ∀ cur, (o.hit r tmin tmax cur).1 = true) →
        (ol.hit bh stack r tmin tmax rec).1 = true) := by
  refine ⟨?_, ?_⟩
  · simp [object_list.hit_counted, hbox, hit_loop_counted_eq]
  · intro hex
    have h := hit_loop_some_child r tmin ol.list false tmax stack rec hex
    simpa [object_list.hit, hbox] using h

variable [LinearOrder F]

/-- The counted `bvh_node::hit` returns what `bvh_node::hit` returns. -/
theorem bvh_node_hit_counted_fst (bh : box_test F) (stack : hit_record F) :
    ∀ (b : bvh_node F) (r : ray F) (tmin tmax : F) (rec : hit_record F),
      (b.hit_counted bh stack r tmin tmax rec).1 = b.hit bh stack r tmin tmax rec := by
  intro b
  induction b with
  | object o => intro r tmin tmax rec; rfl
  | node left right box ihl ihr =>
    intro r tmin tmax rec
    simp only [bvh_node.hit_counted, bvh_node.hit, ihl, ihr]
    split_ifs <;> rfl

/-- The three-way comparison is zero exactly on equal numbers. -/
theorem three_way_eq_zero (p q : F) : three_way p q = 0 ↔ p = q := by
  unfold three_way
  split_ifs with h1 h2
  · simp [h1]
  · simp [h1]
  · simp [h1]

/-- The three-way comparison is `-1` exactly when the first number is smaller. -/
theorem three_way_eq_neg_one (p q : F) : three_way p q = -1 ↔ p < q := by
  unfold three_way
  split_ifs with h1 h2
  · simp [h1]
  · simp [h2]
  · simp [h2]

/-- The three-way comparison is `1` exactly when the first number is larger. -/
theorem three_way_eq_one (p q : F) : three_way p q = 1 ↔ q < p := by
  unfold three_way
  split_ifs with h1 h2
  · simp [h1]
  · simp only [show ((-1 : Int) = 1) = False from by decide, false_iff, not_lt]
    exact le_of_lt h2
  · simp only [true_iff]
    exact lt_of_le_of_ne (not_lt.1 h2) (fun h => h1 h.symm)

/-- The three-way comparison is not positive exactly when the first number is not
larger. -/
theorem three_way_nonpos (p q : F) : three_way p q ≤ 0 ↔ p ≤ q := by
  unfold three_way
  split_ifs with h1 h2
  · simp [h1]
  · simp [le_of_lt h2]
  · simp only [show ¬ ((1 : Int) ≤ 0) from by decide, false_iff, not_le]
    exact lt_of_le_of_ne (not_lt.1 h2) (fun h => h1 h.symm)

/-- Swapping the arguments negates the three-way comparison. -/
theorem three_way_swap (p q : F) : three_way p q = -three_way q p := by
  unfold three_way
  rcases lt_trichotomy p q with h | h | h
  · rw [if_neg (ne_of_lt h), if_pos h, if_neg (ne_of_gt h), if_neg (not_lt.2 (le_of_lt h))]
  · subst h; simp
  · rw [if_neg (ne_of_gt h), if_neg (not_lt.2 (le_of_lt h)), if_neg (ne_of_lt h), if_pos h]
    rfl

variable [Sub F] [Zero F]

/-- With exact subtraction, `box_compare_x` on two boxed elements is the three-way
comparison of the `x` coordinates of the box minima. -/
theorem box_compare_x_exact (hzero : ∀ p q : F, p - q = 0 ↔ p = q)
    (hneg : ∀ p q : F, p - q < 0 ↔ p < q) {a b : scene_object F} {A B : aabb F}
    (ha : a.bounding_box 0 0 = some A) (hb : b.bounding_box 0 0 = some B) :
    box_compare_x a b = .ok (three_way A._min.x B._min.x) := by
  unfold box_compare_x three_way
  rw [ha, hb]
  simp only [hzero, hneg]
  split_ifs <;> rfl

/-- With exact subtraction, `box_compare_y` on two boxed elements is the three-way
comparison of the `y` coordinates of the box minima. -/
theorem box_compare_y_exact (hzero : ∀ p q : F, p - q = 0 ↔ p = q)
    (hneg : ∀ p q : F, p - q < 0 ↔ p < q) {a b : scene_object F} {A B : aabb F}
    (ha : a.bounding_box 0 0 = some A) (hb : b.bounding_box 0 0 = some B) :
    box_compare_y a b = .ok (three_way A._min.y B._min.y) := by
  unfold box_compare_y three_way
  rw [ha, hb]
  simp only [hzero, hneg]
  split_ifs <;> rfl

/-- With exact subtraction, `box_compare_z` on two boxed elements is the three-way
comparison of the `z` coordinates of the box minima. -/
theorem box_compare_z_exact (hzero : ∀ p q : F, p - q = 0 ↔ p = q)
    (hneg : ∀ p q : F, p - q < 0 ↔ p < q) {a b : scene_object F} {A B : aabb F}
    (ha : a.bounding_box 0 0 = some A) (hb : b.bounding_box 0 0 = some B) :
    box_compare_z a b = .ok (three_way A._min.z B._min.z) := by
  unfold box_compare_z three_way
  rw [ha, hb]
  simp only [hzero, hneg]
  split_ifs <;> rfl

/-- With exact subtraction, the comparator selected for a valid axis is the three-way
comparison of the box minima on that axis. -/
theorem box_compare_exact (hzero : ∀ p q : F, p - q = 0 ↔ p = q)
    (hneg : ∀ p q : F, p - q < 0 ↔ p < q) (axis : Int)
    (haxis : axis = 0 ∨ axis = 1 ∨ axis = 2) :
    ∃ cmp : cmp_fn F, box_compare axis = .ok cmp ∧
      ∀ (a b : scene_object F) (A B : aabb F), a.bounding_box 0 0 = some A →
        b.bounding_box 0 0 = some B →
        cmp a b = .ok (three_way (A._min.get axis) (B._min.get axis)) := by
  rcases haxis with rfl | rfl | rfl
  · exact ⟨box_compare_x, rfl, fun _ _ _ _ ha hb => box_compare_x_exact hzero hneg ha hb⟩
  · exact ⟨box_compare_y, rfl, fun _ _ _ _ ha hb => box_compare_y_exact hzero hneg ha hb⟩
  · exact ⟨box_compare_z, rfl, fun _ _ _ _ ha hb => box_compare_z_exact hzero hneg ha hb⟩

omit [Sub F] [Zero F]

variable [BoundedOrder F]

/-- The scan of the constructor `object_list::object_list` adds to the accumulated
corners the union of the boxes of the children before the first one without a box. -/
theorem box_loop_up_to_boxless (time0 time1 : F) (l : List (scene_object F)) :
    ∀ minbb maxbb : vec3 F, object_list.box_loop time0 time1 l minbb maxbb =
      surrounding_box ⟨minbb, maxbb⟩
        (union_all (element_boxes (l.take (first_boxless time0 time1 l)) time0 time1)) := by
  induction l with
  | nil =>
    intro minbb maxbb
    show (⟨minbb, maxbb⟩ : aabb F) = surrounding_box ⟨minbb, maxbb⟩ ⟨⟨⊤, ⊤, ⊤⟩, ⟨⊥, ⊥, ⊥⟩⟩
    rw [surrounding_box_empty]
  | cons o rest ih =>
    intro minbb maxbb
    cases hc : o.bounding_box time0 time1 with
    | none =>
      have hk : first_boxless time0 time1 (o :: rest) = 0 := by
        simp only [first_boxless, hc]
      rw [hk]
      simp only [object_list.box_loop, hc, List.take_zero]
      show (⟨minbb, maxbb⟩ : aabb F) = surrounding_box ⟨minbb, maxbb⟩ ⟨⟨⊤, ⊤, ⊤⟩, ⟨⊥, ⊥, ⊥⟩⟩
      rw [surrounding_box_empty]
    | some c =>
      have hk : first_boxless time0 time1 (o :: rest) =
          first_boxless time0 time1 rest + 1 := by
        simp only [first_boxless, hc]; omega
      have heb : element_boxes (o :: rest.take (first_boxless time0 time1 rest)) time0 time1 =
          c :: element_boxes (rest.take (first_boxless time0 time1 rest)) time0 time1 := by
        simp [element_boxes, List.filterMap_cons, hc]
      rw [hk, List.take_succ_cons, heb, union_all_cons, ← surrounding_box_assoc]
      simp only [object_list.box_loop, hc]
      exact ih _ _

omit [LinearOrder F] [BoundedOrder F] in
/-- The index `first_boxless` is at most the number of children; every child before it
has a box and the child at it, if any, has none. -/
theorem first_boxless_spec (time0 time1 : F) (l : List (scene_object F)) :
    first_boxless time0 time1 l ≤ l.length ∧
      (∀ o ∈ l.take (first_boxless time0 time1 l),
        ∃ box, o.bounding_box time0 time1 = some box) ∧
      (first_boxless time0 time1 l < l.length →
        ∃ o, l[first_boxless time0 time1 l]? = some o ∧
          o.bounding_box time0 time1 = none) ∧
      ((∀ o ∈ l, ∃ box, o.bounding_box time0 time1 = some box) →
        first_boxless time0 time1 l = l.length) := by
  induction l with
  | nil => simp [first_boxless]
  | cons o rest ih =>
    obtain ⟨i1, i2, i3, i4⟩ := ih
    cases hc : o.bounding_box time0 time1 with
    | none =>
      have hk : first_boxless time0 time1 (o :: rest) = 0 := by
        simp only [first_boxless, hc]
      rw [hk]
      refine ⟨Nat.zero_le _, ?_, ?_, ?_⟩
      · intro o1 ho1; simp at ho1
      · intro _; exact ⟨o, by simp, hc⟩
      · intro hall
        obtain ⟨box, hbox⟩ := hall o (List.mem_cons_self _ _)
        rw [hc] at hbox; cases hbox
    | some c =>
      have hk : first_boxless time0 time1 (o :: rest) =
          first_boxless time0 time1 rest + 1 := by
        simp only [first_boxless, hc]; omega
      rw [hk]
      refine ⟨?_, ?_, ?_, ?_⟩
      · simp only [List.length_cons]; omega
      · intro o1 ho1
        rw [List.take_succ_cons] at ho1
        rcases List.mem_cons.1 ho1 with rfl | hin
        · exact ⟨c, hc⟩
        · exact i2 o1 hin
      · intro hlt
        simp only [List.length_cons] at hlt
        obtain ⟨o1, ho1, hnone⟩ := i3 (by omega)
        exact ⟨o1, by simpa using ho1, hnone⟩
      · intro hall
        simp only [List.length_cons]
        rw [i4 (fun o1 ho1 => hall o1 (List.mem_cons_of_mem _ ho1))]

end further

/-! ## The claims -/

section claims

/-- C1. Equivalence of hierarchy and aggregate: for a non-empty array of leaves that
have bounding boxes and obey the leaf contract, a monotone box test, any draw stream,
ray and interval, construction completes, and `bvh_node::hit` on the hierarchy and
`object_list::hit` on the aggregate built from the same array (in any order) agree on
hit or miss and, on a hit, report the same `t`. -/
theorem C1_hierarchy_equals_aggregate {F : Type} [LinearOrder F] [BoundedOrder F]
    [Sub F] [Zero F] {G : Type} (bh : box_test F) (qsort : sort_fn F) (randf : G → ℚ × G)
    (stack stack1 : hit_record F) (list : List (scene_object F)) (time0 time1 : F)
    (rng : G) (fuel : Nat)
    (hm : box_test.monotone bh) (hq : sort_contract qsort) (hr : randf_contract randf)
    (hne : list ≠ []) (hfuel : list.length ≤ fuel)
    (hb0 : ∀ o ∈ list, ∃ box, o.bounding_box 0 0 = some box)
    (hb : ∀ o ∈ list, ∃ box, o.bounding_box time0 time1 = some box)
    (hc : ∀ o ∈ list, leaf_contract o)
    (hbc : ∀ o ∈ list, box_contract bh time0 time1 o) :
    ∃ b l g, bvh_node.construct qsort randf fuel list time0 time1 rng = .done (b, l, g) ∧
      ∀ array : List (scene_object F), array.Perm list →
        ∀ (r : ray F) (tmin tmax : F) (rec rec1 : hit_record F),
          (b.hit bh stack r tmin tmax rec).1 =
              ((object_list.construct array time0 time1).hit bh stack1 r tmin tmax rec1).1 ∧
            ((b.hit bh stack r tmin tmax rec).1 = true →
              (b.hit bh stack r tmin tmax rec).2.t =
                ((object_list.construct array time0 time1).hit bh stack1 r tmin tmax
                  rec1).2.t) := by
  rcases construct_result qsort randf hq hr time0 time1 fuel list rng hne hfuel with
    ⟨b, l, g, hdone, hperm, hbuilt⟩ | ⟨e, _, _, o, ho, hor⟩
  · refine ⟨b, l, g, hdone, ?_⟩
    intro array harr r tmin tmax rec rec1
    have hcl : ∀ o ∈ l, leaf_contract o := fun o ho => hc o (hperm.subset ho)
    have hbcl : ∀ o ∈ l, box_contract bh time0 time1 o := fun o ho => hbc o (hperm.subset ho)
    have hn := built_hit_nearest bh hm stack hbuilt hcl hbcl r tmin tmax rec
    have hn1 := nearest_congr list (fun o => hperm.mem_iff) hn
    have ha := aggregate_hit_nearest bh hm stack1 time0 time1 array
      (fun o ho => hb o (harr.subset ho)) (fun o ho => hc o (harr.subset ho))
      (fun o ho => hbc o (harr.subset ho)) r tmin tmax rec1
    have ha1 := nearest_congr list (fun o => harr.mem_iff) ha
    exact nearest_unique hn1 ha1
  · exfalso
    rcases hor with h | h
    · obtain ⟨box, hbox⟩ := hb0 o ho
      rw [hbox] at h; cases h
    · obtain ⟨box, hbox⟩ := hb o ho
      rw [hbox] at h; cases h

/-- C1 at a concrete scene: three boxes, insertion sort and the cyclic generator. -/
theorem C1_hierarchy_equals_aggregate_witness :
    box_test.monotone (probe_hit : box_test level) ∧
      sort_contract (insertion_sort : sort_fn level) ∧ randf_contract cycle_randf ∧
      boxed_scene ≠ [] ∧ boxed_scene.length ≤ 3 ∧
      (∀ o ∈ boxed_scene, leaf_contract o) ∧
      (∀ o ∈ boxed_scene, box_contract probe_hit 0 0 o) ∧
      ∃ b l g, bvh_node.construct insertion_sort cycle_randf 3 boxed_scene 0 0 0 =
          .done (b, l, g) ∧
        ∀ array : List (scene_object level), array.Perm boxed_scene →
          ∀ (r : ray level) (tmin tmax : level) (rec rec1 : hit_record level),
            (b.hit probe_hit blank r tmin tmax rec).1 =
                ((object_list.construct array 0 0).hit probe_hit blank r tmin tmax
                  rec1).1 ∧
              ((b.hit probe_hit blank r tmin tmax rec).1 = true →
                (b.hit probe_hit blank r tmin tmax rec).2.t =
                  ((object_list.construct array 0 0).hit probe_hit blank r tmin tmax
                    rec1).2.t) :=
  ⟨probe_hit_monotone, insertion_sort_contract, cycle_randf_contract, List.cons_ne_nil _ _, by decide,
    boxed_scene_leaf_contract, boxed_scene_box_contract 0 0,
    C1_hierarchy_equals_aggregate probe_hit insertion_sort cycle_randf blank blank
      boxed_scene 0 0 0 3 probe_hit_monotone insertion_sort_contract cycle_randf_contract
      (List.cons_ne_nil _ _) (by decide) (boxed_scene_boxed 0 0) (boxed_scene_boxed 0 0)
      boxed_scene_leaf_contract (boxed_scene_box_contract 0 0)⟩


/-- C2. Aggregate nearest hit: for an `object_list` whose children obey the leaf
contract and a ray and interval on which the aggregate's own box test passes,
`object_list::hit` reports a hit iff some child hits within `[tmin, tmax]`; the
reported `t` then lies in `[tmin, tmax]`, is the closest `t` of one of the children,
and no child has a hit in `[tmin, tmax]` with a smaller `t`. -/
theorem C2_aggregate_nearest_hit {F : Type} [LinearOrder F] (bh : box_test F) (stack : hit_record F)
    (ol : object_list F) (r : ray F) (tmin tmax : F) (rec : hit_record F)
    (hc : ∀ o ∈ ol.list, leaf_contract o) (hbox : bh ol.box r tmin tmax = true) :
    ((ol.hit bh stack r tmin tmax rec).1 = true ↔
        ∃ o ∈ ol.list, ∃ rec0, (o.hit r tmin tmax rec0).1 = true) ∧
      ((ol.hit bh stack r tmin tmax rec).1 = true →
        (tmin ≤ (ol.hit bh stack r tmin tmax rec).2.t ∧
          (ol.hit bh stack r tmin tmax rec).2.t ≤ tmax) ∧
        (∃ o ∈ ol.list, ∃ rec0, (o.hit r tmin tmax rec0).1 = true ∧
          (o.hit r tmin tmax rec0).2.t = (ol.hit bh stack r tmin tmax rec).2.t) ∧
        ∀ o ∈ ol.list, ∀ rec0, (o.hit r tmin tmax rec0).1 = true →
          (ol.hit bh stack r tmin tmax rec).2.t ≤ (o.hit r tmin tmax rec0).2.t) := by
  have hn := hit_loop_nearest r tmin tmax ol.list hc stack rec
  have hres : ol.hit bh stack r tmin tmax rec =
      ((object_list.hit_loop r tmin ol.list (false, tmax, stack, rec)).1,
        (object_list.hit_loop r tmin ol.list (false, tmax, stack, rec)).2.2.2) := by
    simp [object_list.hit, hbox]
  rw [hres]
  obtain ⟨h1, h2⟩ := hn
  refine ⟨?_, ?_⟩
  · rw [h1]
    constructor
    · rintro ⟨o, ho, hex⟩
      exact ⟨o, ho, stack, (leaf_hit_iff_root (hc o ho) r tmin tmax stack).2 hex⟩
    · rintro ⟨o, ho, rec0, hhit⟩
      exact ⟨o, ho, (leaf_hit_iff_root (hc o ho) r tmin tmax rec0).1 hhit⟩
  · intro hok
    obtain ⟨hr, ⟨o, ho, hroot⟩, hmin⟩ := h2 hok
    refine ⟨hr, ⟨o, ho, stack, ?_, ?_⟩, ?_⟩
    · exact (hc o ho).complete r tmin tmax stack _ hroot hr.1 hr.2
    · have hhit := (hc o ho).complete r tmin tmax stack _ hroot hr.1 hr.2
      apply le_antisymm
      · exact (hc o ho).closest r tmin tmax stack _ hhit hroot hr.1 hr.2
      · exact hmin o ho _ ⟨tmin, tmax, stack, hhit, rfl⟩
          ((hc o ho).range r tmin tmax stack hhit).1
          ((hc o ho).range r tmin tmax stack hhit).2
    · intro o1 ho1 rec0 hhit
      exact hmin o1 ho1 _ ⟨tmin, tmax, rec0, hhit, rfl⟩
        ((hc o1 ho1).range r tmin tmax rec0 hhit).1
        ((hc o1 ho1).range r tmin tmax rec0 hhit).2

/-- C2 at a concrete scene: three boxes and a ray that meets the stored box. -/
theorem C2_aggregate_nearest_hit_witness :
    (∀ o ∈ (object_list.construct boxed_scene 0 0).list, leaf_contract o) ∧
      probe_hit (object_list.construct boxed_scene 0 0).box low_ray 0 ⊤ = true ∧
      (((object_list.construct boxed_scene 0 0).hit probe_hit blank low_ray 0 ⊤
          blank).1 = true ↔
        ∃ o ∈ (object_list.construct boxed_scene 0 0).list, ∃ rec0,
          (o.hit low_ray 0 ⊤ rec0).1 = true) :=
  ⟨boxed_scene_leaf_contract, by decide,
    (C2_aggregate_nearest_hit probe_hit blank (object_list.construct boxed_scene 0 0)
      low_ray 0 ⊤ blank boxed_scene_leaf_contract (by decide)).1⟩

/-- C3. Hit-record invariant for the hierarchy: for the hierarchy built over a
non-empty array of leaves that have boxes and obey the leaf contract, whenever
`bvh_node::hit` reports a hit, the reported `t` lies in `[tmin, tmax]`, is the `t` of
a leaf of the hierarchy hit within `[tmin, tmax]`, and no leaf of the hierarchy has a
hit within `[tmin, tmax]` with a smaller `t`; the leaves are the elements of the
array. -/
theorem C3_hierarchy_hit_record {F : Type} [LinearOrder F] [BoundedOrder F]
    [Sub F] [Zero F] {G : Type} (bh : box_test F) (qsort : sort_fn F) (randf : G → ℚ × G)
    (stack : hit_record F) (list : List (scene_object F)) (time0 time1 : F)
    (rng : G) (fuel : Nat)
    (hm : box_test.monotone bh) (hq : sort_contract qsort) (hr : randf_contract randf)
    (hne : list ≠ []) (hfuel : list.length ≤ fuel)
    (hb0 : ∀ o ∈ list, ∃ box, o.bounding_box 0 0 = some box)
    (hb : ∀ o ∈ list, ∃ box, o.bounding_box time0 time1 = some box)
    (hc : ∀ o ∈ list, leaf_contract o)
    (hbc : ∀ o ∈ list, box_contract bh time0 time1 o) :
    ∃ b l g, bvh_node.construct qsort randf fuel list time0 time1 rng = .done (b, l, g) ∧
      (∀ o, o ∈ b.leaves ↔ o ∈ list) ∧
      ∀ (r : ray F) (tmin tmax : F) (rec : hit_record F),
        (b.hit bh stack r tmin tmax rec).1 = true →
          (tmin ≤ (b.hit bh stack r tmin tmax rec).2.t ∧
            (b.hit bh stack r tmin tmax rec).2.t ≤ tmax) ∧
          (∃ o ∈ b.leaves, ∃ rec0, (o.hit r tmin tmax rec0).1 = true ∧
            (o.hit r tmin tmax rec0).2.t = (b.hit bh stack r tmin tmax rec).2.t) ∧
          ∀ o ∈ b.leaves, ∀ rec0, (o.hit r tmin tmax rec0).1 = true →
            (b.hit bh stack r tmin tmax rec).2.t ≤ (o.hit r tmin tmax rec0).2.t := by
  rcases construct_result qsort randf hq hr time0 time1 fuel list rng hne hfuel with
    ⟨b, l, g, hdone, hperm, hbuilt⟩ | ⟨e, _, _, o, ho, hor⟩
  · have hleaves : ∀ o, o ∈ b.leaves ↔ o ∈ list :=
      fun o => (built_leaves hbuilt o).trans hperm.mem_iff
    refine ⟨b, l, g, hdone, hleaves, ?_⟩
    intro r tmin tmax rec hok
    have hcl : ∀ o ∈ l, leaf_contract o := fun o ho => hc o (hperm.subset ho)
    have hbcl : ∀ o ∈ l, box_contract bh time0 time1 o := fun o ho => hbc o (hperm.subset ho)
    have hn := built_hit_nearest bh hm stack hbuilt hcl hbcl r tmin tmax rec
    have hn1 := nearest_congr b.leaves (fun o => (built_leaves hbuilt o).symm) hn
    exact (nearest_hits (fun o ho => hc o ((hleaves o).1 ho)) hn1).2 hok
  · exfalso
    rcases hor with h | h
    · obtain ⟨box, hbox⟩ := hb0 o ho
      rw [hbox] at h; cases h
    · obtain ⟨box, hbox⟩ := hb o ho
      rw [hbox] at h; cases h

/-- C3 at a concrete scene: three boxes, insertion sort and the cyclic generator. -/
theorem C3_hierarchy_hit_record_witness :
    box_test.monotone (probe_hit : box_test level) ∧
      sort_contract (insertion_sort : sort_fn level) ∧ randf_contract cycle_randf ∧
      boxed_scene ≠ [] ∧ boxed_scene.length ≤ 3 ∧
      (∀ o ∈ boxed_scene, leaf_contract o) ∧
      (∀ o ∈ boxed_scene, box_contract probe_hit 0 0 o) ∧
      ∃ b l g, bvh_node.construct insertion_sort cycle_randf 3 boxed_scene 0 0 0 =
          .done (b, l, g) ∧
        (∀ o, o ∈ b.leaves ↔ o ∈ boxed_scene) ∧
        ∀ (r : ray level) (tmin tmax : level) (rec : hit_record level),
          (b.hit probe_hit blank r tmin tmax rec).1 = true →
            (tmin ≤ (b.hit probe_hit blank r tmin tmax rec).2.t ∧
              (b.hit probe_hit blank r tmin tmax rec).2.t ≤ tmax) ∧
            (∃ o ∈ b.leaves, ∃ rec0, (o.hit r tmin tmax rec0).1 = true ∧
              (o.hit r tmin tmax rec0).2.t = (b.hit probe_hit blank r tmin tmax rec).2.t) ∧
            ∀ o ∈ b.leaves, ∀ rec0, (o.hit r tmin tmax rec0).1 = true →
              (b.hit probe_hit blank r tmin tmax rec).2.t ≤ (o.hit r tmin tmax rec0).2.t :=
  ⟨probe_hit_monotone, insertion_sort_contract, cycle_randf_contract, List.cons_ne_nil _ _, by decide,
    boxed_scene_leaf_contract, boxed_scene_box_contract 0 0,
    C3_hierarchy_hit_record probe_hit insertion_sort cycle_randf blank
      boxed_scene 0 0 0 3 probe_hit_monotone insertion_sort_contract cycle_randf_contract
      (List.cons_ne_nil _ _) (by decide) (boxed_scene_boxed 0 0) (boxed_scene_boxed 0 0)
      boxed_scene_leaf_contract (boxed_scene_box_contract 0 0)⟩

/-- C5, the code at the failing input: the aggregate built from a boxed primitive
followed by an unbounded plane has a child without a bounding box, and
`object_list::bounding_box` succeeds, with the box of the first child. -/
theorem C5_partial_union_reported :
    (∃ o ∈ mixed_scene, o.bounding_box 0 0 = none) ∧
      (object_list.construct mixed_scene 0 0).bounding_box 0 0 =
        some ⟨⟨1, -1, -1⟩, ⟨3, 1, 1⟩⟩ := by
  refine ⟨⟨sheet 5 8, ?_, rfl⟩, ?_⟩
  · simp [mixed_scene]
  · decide

/-- C6. Aggregate box sentinel: `object_list::bounding_box` fails iff the stored box
has `min.x > max.x`, and on success outputs exactly the stored box; for an aggregate
constructed from children whose boxes are valid it fails iff the array is empty or
child 0 has no box; and for some array whose later child has no box it succeeds with
the partial union. -/
theorem C6_box_sentinel {F : Type} [LinearOrder F] [BoundedOrder F]
    (hF : (⊥ : F) < ⊤) :
    (∀ (ol : object_list F) (t0 t1 : F),
        (ol.bounding_box t0 t1 = none ↔ ol.box._min.x > ol.box._max.x) ∧
          ∀ b, ol.bounding_box t0 t1 = some b → b = ol.box) ∧
      (∀ (l : List (scene_object F)) (time0 time1 t0 t1 : F),
        (∀ o ∈ l, ∀ b, o.bounding_box time0 time1 = some b → b.valid) →
        ((object_list.construct l time0 time1).bounding_box t0 t1 = none ↔
          l = [] ∨ ∃ o rest, l = o :: rest ∧ o.bounding_box time0 time1 = none)) ∧
      (∀ (time0 time1 : F) (p : vec3 F), ∃ l : List (scene_object F),
        (∀ o ∈ l, ∀ b, o.bounding_box time0 time1 = some b → b.valid) ∧
          (∃ o rest, l = slab p p 0 :: o :: rest ∧ o.bounding_box time0 time1 = none) ∧
          (object_list.construct l time0 time1).bounding_box time0 time1 =
            some (union_all (element_boxes [slab p p 0] time0 time1))) := by
  have hsent : ∀ (ol : object_list F) (t0 t1 : F),
      (ol.bounding_box t0 t1 = none ↔ ol.box._min.x > ol.box._max.x) ∧
        ∀ b, ol.bounding_box t0 t1 = some b → b = ol.box := by
    intro ol t0 t1
    unfold object_list.bounding_box
    split_ifs with h
    · simp [h]
    · simp only [h, iff_false]
      refine ⟨by simp, ?_⟩
      intro b hb
      exact (Option.some.inj hb).symm
  refine ⟨hsent, ?_, ?_⟩
  · intro l time0 time1 t0 t1 hvalid
    rw [(hsent _ t0 t1).1]
    cases l with
    | nil =>
      simp only [object_list.construct, object_list.box_loop, true_or, iff_true]
      exact hF
    | cons o rest =>
      simp only [object_list.construct, object_list.box_loop]
      cases hb : o.bounding_box time0 time1 with
      | none =>
        simp only [gt_iff_lt]
        constructor
        · intro _
          exact Or.inr ⟨o, rest, rfl, hb⟩
        · intro _
          exact hF
      | some b =>
        have hv : b.valid := hvalid o (List.mem_cons_self _ _) b hb
        obtain ⟨h1, h2⟩ := box_loop_bounds time0 time1 rest
          (vec3.min ⟨⊤, ⊤, ⊤⟩ b._min) (vec3.max ⟨⊥, ⊥, ⊥⟩ b._max)
        simp only [gt_iff_lt]
        constructor
        · intro hlt
          have hmin : (vec3.min ⟨⊤, ⊤, ⊤⟩ b._min).x = b._min.x := by simp [vec3.min]
          have hmax : (vec3.max ⟨⊥, ⊥, ⊥⟩ b._max).x = b._max.x := by simp [vec3.max]
          rw [hmin] at h1
          rw [hmax] at h2
          exact absurd (le_trans h1 (le_trans hv.1 h2)) (not_le.2 hlt)
        · rintro (h | ⟨o1, rest1, heq, hnone⟩)
          · cases h
          · obtain ⟨rfl, _⟩ := List.cons.inj heq
            rw [hb] at hnone
            cases hnone
  · intro time0 time1 p
    refine ⟨[slab p p 0, sheet p.x 0], ?_, ⟨sheet p.x 0, [], rfl, rfl⟩, ?_⟩
    · intro o ho b hb
      simp only [List.mem_cons, List.mem_singleton, List.not_mem_nil, or_false] at ho
      rcases ho with rfl | rfl
      · simp only [slab] at hb
        rw [← Option.some.inj hb]
        exact ⟨le_refl _, le_refl _, le_refl _⟩
      · simp [sheet] at hb
    · have hbox : (object_list.construct [slab p p 0, sheet p.x 0] time0 time1).box =
          ⟨p, p⟩ := by
        simp [object_list.construct, object_list.box_loop, slab, sheet, vec3.min, vec3.max]
      have hu : union_all (element_boxes [slab p p 0] time0 time1) = ⟨p, p⟩ := by
        simp [union_all, element_boxes, slab, surrounding_box, vec3.min, vec3.max]
      rw [hu]
      unfold object_list.bounding_box
      rw [hbox]
      simp

/-- C6 on the scale `level`: the empty aggregate has no box. -/
theorem C6_box_sentinel_witness :
    (⊥ : level) < ⊤ ∧
      (object_list.construct ([] : List (scene_object level)) 0 0).bounding_box 0 0 =
        none :=
  ⟨by decide,
    ((C6_box_sentinel (F := level) (by decide)).2.1 [] 0 0 0 0
      (fun _ h => absurd h (List.not_mem_nil _))).2 (Or.inl rfl)⟩

/-- C7. Empty aggregate: the `object_list` constructed with `n = 0` stores the box
`(min = +INFINITY, max = -INFINITY)` on every axis, `bounding_box` fails, and `hit`
returns false for every ray and interval, whatever the box test answers, leaving the
output record as it was. -/
theorem C7_empty_aggregate {F : Type} [LinearOrder F] [BoundedOrder F]
    (hF : (⊥ : F) < ⊤) (time0 time1 : F) :
    (object_list.construct ([] : List (scene_object F)) time0 time1).box =
        ⟨⟨⊤, ⊤, ⊤⟩, ⟨⊥, ⊥, ⊥⟩⟩ ∧
      (∀ t0 t1,
        (object_list.construct ([] : List (scene_object F)) time0 time1).bounding_box
          t0 t1 = none) ∧
      ∀ (bh : box_test F) (stack : hit_record F) (r : ray F) (tmin tmax : F)
        (rec : hit_record F),
        (object_list.construct ([] : List (scene_object F)) time0 time1).hit bh stack r
          tmin tmax rec = (false, rec) := by
  refine ⟨rfl, ?_, ?_⟩
  · intro t0 t1
    simp only [object_list.construct, object_list.box_loop, object_list.bounding_box]
    rw [if_pos hF]
  · intro bh stack r tmin tmax rec
    simp only [object_list.construct, object_list.hit, object_list.hit_loop]
    split_ifs <;> rfl

/-- C7 on the scale `level`. -/
theorem C7_empty_aggregate_witness :
    (⊥ : level) < ⊤ ∧
      (object_list.construct ([] : List (scene_object level)) 0 0).bounding_box 0 0 =
        none ∧
      (object_list.construct ([] : List (scene_object level)) 0 0).hit probe_hit blank
        low_ray 0 ⊤ blank = (false, blank) :=
  ⟨by decide, (C7_empty_aggregate (F := level) (by decide) 0 0).2.1 0 0,
    (C7_empty_aggregate (F := level) (by decide) 0 0).2.2 probe_hit blank low_ray 0 ⊤
      blank⟩

/-- C8. Construction fails fatally exactly on box-less input: for a non-empty array
whose elements' `bounding_box` success does not depend on the time arguments, with
enough fuel the constructor stops at a `DebugBreak()` iff some element has no bounding
box, it then stops in a comparator or in the child-box check, and when every element
has a box it completes. -/
theorem C8_fatal_iff_boxless {F : Type} [LinearOrder F] [Sub F] [Zero F] {G : Type}
    (qsort : sort_fn F) (randf : G → ℚ × G) (list : List (scene_object F))
    (time0 time1 : F) (rng : G) (fuel : Nat)
    (hq : sort_contract qsort) (hr : randf_contract randf)
    (hne : list ≠ []) (hfuel : list.length ≤ fuel)
    (htime : ∀ o ∈ list, ∀ t0 t1 t2 t3 : F,
      (o.bounding_box t0 t1).isSome = (o.bounding_box t2 t3).isSome) :
    ((∃ e, bvh_node.construct qsort randf fuel list time0 time1 rng = .fatal e) ↔
        ∃ o ∈ list, o.bounding_box time0 time1 = none) ∧
      (∀ e, bvh_node.construct qsort randf fuel list time0 time1 rng = .fatal e →
        e = .compare_no_bounding_box ∨ e = .constructor_no_bounding_box) ∧
      ((∀ o ∈ list, ∃ box, o.bounding_box time0 time1 = some box) →
        ∃ b l g, bvh_node.construct qsort randf fuel list time0 time1 rng =
          .done (b, l, g)) := by
  have hnone : ∀ o ∈ list, (o.bounding_box 0 0 = none ∨ o.bounding_box time0 time1 = none) →
      o.bounding_box time0 time1 = none := by
    intro o ho hor
    rcases hor with h | h
    · have := htime o ho 0 0 time0 time1
      rw [h] at this
      cases hbb : o.bounding_box time0 time1 with
      | none => rfl
      | some box => rw [hbb] at this; cases this
    · exact h
  rcases construct_result qsort randf hq hr time0 time1 fuel list rng hne hfuel with
    ⟨b, l, g, hdone, hperm, hbuilt⟩ | ⟨e, hfatal, hnax, o, ho, hor⟩
  · have hall : ∀ o ∈ list, ∃ box, o.bounding_box time0 time1 = some box :=
      fun o ho => built_elements_boxed hbuilt o (hperm.symm.subset ho)
    refine ⟨?_, ?_, fun _ => ⟨b, l, g, hdone⟩⟩
    · constructor
      · rintro ⟨e, he⟩
        rw [hdone] at he; cases he
      · rintro ⟨o, ho, hnone1⟩
        obtain ⟨box, hbox⟩ := hall o ho
        rw [hbox] at hnone1; cases hnone1
    · intro e he
      rw [hdone] at he; cases he
  · refine ⟨?_, ?_, ?_⟩
    · constructor
      · intro _
        exact ⟨o, ho, hnone o ho hor⟩
      · intro _
        exact ⟨e, hfatal⟩
    · intro e1 he1
      rw [hfatal] at he1
      cases he1
      cases e with
      | compare_no_bounding_box => exact Or.inl rfl
      | invalid_coordinate_axis => exact absurd rfl hnax
      | constructor_no_bounding_box => exact Or.inr rfl
    · intro hall
      obtain ⟨box, hbox⟩ := hall o ho
      rw [hnone o ho hor] at hbox
      cases hbox

/-- C8 at a concrete scene: a box followed by an unbounded plane. -/
theorem C8_fatal_iff_boxless_witness :
    sort_contract (insertion_sort : sort_fn level) ∧ randf_contract cycle_randf ∧
      mixed_scene ≠ [] ∧ mixed_scene.length ≤ 2 ∧
      (∀ o ∈ mixed_scene, ∀ t0 t1 t2 t3 : level,
        (o.bounding_box t0 t1).isSome = (o.bounding_box t2 t3).isSome) ∧
      ∃ e, bvh_node.construct insertion_sort cycle_randf 2 mixed_scene 0 0 0 = .fatal e :=
  have htime : ∀ o ∈ mixed_scene, ∀ t0 t1 t2 t3 : level,
      (o.bounding_box t0 t1).isSome = (o.bounding_box t2 t3).isSome := by
    intro o ho t0 t1 t2 t3
    simp only [mixed_scene, List.mem_cons, List.mem_singleton, List.not_mem_nil,
      or_false] at ho
    rcases ho with rfl | rfl <;> rfl
  ⟨insertion_sort_contract, cycle_randf_contract, List.cons_ne_nil _ _, by decide, htime,
    (C8_fatal_iff_boxless insertion_sort cycle_randf mixed_scene 0 0 0 2
      insertion_sort_contract cycle_randf_contract (List.cons_ne_nil _ _) (by decide) htime).1.2
      ⟨sheet 5 8, by simp [mixed_scene], rfl⟩⟩

/-- C9. Hierarchy box: in a hierarchy successfully built over a non-empty array of
elements with valid boxes, every `bvh_node` returns its stored box from `bounding_box`
and that box is the union of the boxes of its two children; the box of the root is
the componentwise min of mins and max of maxes over the boxes of all elements, is
valid, and contains the box of every element. -/
theorem C9_hierarchy_box {F : Type} [LinearOrder F] [BoundedOrder F] [Sub F] [Zero F]
    {G : Type} (qsort : sort_fn F) (randf : G → ℚ × G) (list : List (scene_object F))
    (time0 time1 : F) (rng : G) (fuel : Nat) (b : bvh_node F)
    (l : List (scene_object F)) (g : G)
    (hq : sort_contract qsort) (hr : randf_contract randf)
    (hne : list ≠ []) (hfuel : list.length ≤ fuel)
    (hvalid : ∀ o ∈ list, ∀ box, o.bounding_box time0 time1 = some box → box.valid)
    (hdone : bvh_node.construct qsort randf fuel list time0 time1 rng = .done (b, l, g)) :
    (∀ m ∈ b.nodes, ∃ left right box b0 b1, m = .node left right box ∧
        (∀ t0 t1, m.bounding_box t0 t1 = some box) ∧
        left.bounding_box time0 time1 = some b0 ∧
        right.bounding_box time0 time1 = some b1 ∧ box = surrounding_box b0 b1) ∧
      b ∈ b.nodes ∧
      (∀ t0 t1, b.bounding_box t0 t1 =
        some (union_all (element_boxes list time0 time1))) ∧
      (union_all (element_boxes list time0 time1)).valid ∧
      ∀ o ∈ list, ∃ box, o.bounding_box time0 time1 = some box ∧
        box.inside (union_all (element_boxes list time0 time1)) := by
  rcases construct_result qsort randf hq hr time0 time1 fuel list rng hne hfuel with
    ⟨b1, l1, g1, hdone1, hperm, hbuilt⟩ | ⟨e, hfatal, _⟩
  · rw [hdone] at hdone1
    cases hdone1
    have hu : union_all (element_boxes l time0 time1) =
        union_all (element_boxes list time0 time1) :=
      union_all_perm (element_boxes_perm hperm time0 time1)
    have hall : ∀ o ∈ list, ∃ box, o.bounding_box time0 time1 = some box ∧
        box.inside (union_all (element_boxes list time0 time1)) := by
      intro o ho
      obtain ⟨box, hbox⟩ := built_elements_boxed hbuilt o (hperm.symm.subset ho)
      exact ⟨box, hbox, inside_union_all _ box (mem_element_boxes ho hbox)⟩
    obtain ⟨rbox, hrbox⟩ := built_root_box hbuilt
    have hroot := built_root_union hbuilt
    rw [hrbox, hu] at hroot
    refine ⟨?_, ?_, ?_, ?_, hall⟩
    · intro m hm
      obtain ⟨left, right, box, b0, b1, rfl, h0, h1, hbox⟩ := built_nodes hbuilt m hm
      exact ⟨left, right, box, b0, b1, rfl, fun _ _ => rfl, h0, h1, hbox⟩
    · cases hbuilt with
      | one e b0 _ => simp [bvh_node.nodes]
      | two e0 e1 b0 b1 _ _ => simp [bvh_node.nodes]
      | many l0 l1 left right b0 b1 _ _ _ _ _ _ => simp [bvh_node.nodes]
    · intro t0 t1
      rw [hrbox, hroot]
    · obtain ⟨o, ho⟩ := List.exists_mem_of_ne_nil list hne
      obtain ⟨box, hbox, hin⟩ := hall o ho
      have hv := hvalid o ho box hbox
      exact ⟨le_trans hin.1.1 (le_trans hv.1 hin.2.1),
        le_trans hin.1.2.1 (le_trans hv.2.1 hin.2.2.1),
        le_trans hin.1.2.2 (le_trans hv.2.2 hin.2.2.2)⟩
  · rw [hdone] at hfatal
    cases hfatal

/-- C9 at a concrete scene: the hierarchy built over three boxes with insertion sort
and the cyclic generator has a root box spanning all three. -/
theorem C9_hierarchy_box_witness :
    ∃ b l g, bvh_node.construct insertion_sort cycle_randf 3 boxed_scene 0 0 0 =
        .done (b, l, g) ∧
      b ∈ b.nodes ∧ ∀ t0 t1, b.bounding_box t0 t1 = some ⟨⟨1, -1, -1⟩, ⟨6, 6, 6⟩⟩ := by
  have hvalid : ∀ o ∈ boxed_scene, ∀ box, o.bounding_box (0 : level) 0 = some box →
      box.valid := by
    intro o ho box hbox
    simp only [boxed_scene, List.mem_cons, List.mem_singleton, List.not_mem_nil,
      or_false] at ho
    rcases ho with rfl | rfl | rfl <;>
      · rw [← Option.some.inj hbox]
        exact ⟨by decide, by decide, by decide⟩
  rcases construct_result insertion_sort cycle_randf insertion_sort_contract
      cycle_randf_contract (0 : level) 0 3 boxed_scene 0 (List.cons_ne_nil _ _)
      (by decide) with
    ⟨b, l, g, hdone, _, _⟩ | ⟨e, _, _, o, ho, hor⟩
  · have h := C9_hierarchy_box insertion_sort cycle_randf boxed_scene 0 0 0 3 b l g
      insertion_sort_contract cycle_randf_contract (List.cons_ne_nil _ _) (by decide)
      hvalid hdone
    exact ⟨b, l, g, hdone, h.2.1, h.2.2.1⟩
  · exfalso
    obtain ⟨box, hbox⟩ := boxed_scene_boxed 0 0 o ho
    rcases hor with h | h <;> · rw [hbox] at h; cases h

/-- C10. Leaves are the inputs: for a non-empty array of elements with boxes and any
draw stream, construction completes and the hierarchy has exactly `n` logical leaves;
read left to right they are the array as the constructor left it, a rearrangement of
the input array; a node built from one element holds it in both children. -/
theorem C10_leaves_are_inputs {F : Type} [LinearOrder F] [Sub F] [Zero F] {G : Type}
    (qsort : sort_fn F) (randf : G → ℚ × G) (list : List (scene_object F))
    (time0 time1 : F) (rng : G) (fuel : Nat)
    (hq : sort_contract qsort) (hr : randf_contract randf)
    (hne : list ≠ []) (hfuel : list.length ≤ fuel)
    (hb0 : ∀ o ∈ list, ∃ box, o.bounding_box 0 0 = some box)
    (hb : ∀ o ∈ list, ∃ box, o.bounding_box time0 time1 = some box) :
    ∃ b l g, bvh_node.construct qsort randf fuel list time0 time1 rng = .done (b, l, g) ∧
      (b.logical_leaves list.length).length = list.length ∧
      (b.logical_leaves list.length).Perm list ∧
      b.logical_leaves list.length = l ∧
      (list.length = 1 → ∃ e box, list = [e] ∧ b = .node (.object e) (.object e) box) := by
  rcases construct_result qsort randf hq hr time0 time1 fuel list rng hne hfuel with
    ⟨b, l, g, hdone, hperm, hbuilt⟩ | ⟨e, _, _, o, ho, hor⟩
  · have hll : b.logical_leaves list.length = l := by
      rw [← hperm.length_eq]
      exact built_logical_leaves hbuilt
    refine ⟨b, l, g, hdone, ?_, ?_, hll, ?_⟩
    · rw [hll]; exact hperm.length_eq
    · rw [hll]; exact hperm
    · intro h1
      have hl1 : l.length = 1 := hperm.length_eq.trans h1
      cases hbuilt with
      | one e b0 _ =>
        exact ⟨e, _, (List.perm_singleton.1 hperm.symm), rfl⟩
      | two e0 e1 b0 b1 _ _ => simp at hl1
      | many l0 l1 left right b0 b1 h2 _ _ _ _ _ =>
        rw [List.length_append] at hl1; omega
  · exfalso
    rcases hor with h | h
    · obtain ⟨box, hbox⟩ := hb0 o ho
      rw [hbox] at h; cases h
    · obtain ⟨box, hbox⟩ := hb o ho
      rw [hbox] at h; cases h

/-- C10 at a concrete scene: three boxes, insertion sort and the cyclic generator. -/
theorem C10_leaves_are_inputs_witness :
    sort_contract (insertion_sort : sort_fn level) ∧ randf_contract cycle_randf ∧
      boxed_scene ≠ [] ∧ boxed_scene.length ≤ 3 ∧
      ∃ b l g, bvh_node.construct insertion_sort cycle_randf 3 boxed_scene 0 0 0 =
          .done (b, l, g) ∧
        (b.logical_leaves boxed_scene.length).length = boxed_scene.length ∧
        (b.logical_leaves boxed_scene.length).Perm boxed_scene ∧
        b.logical_leaves boxed_scene.length = l ∧
        (boxed_scene.length = 1 →
          ∃ e box, boxed_scene = [e] ∧ b = .node (.object e) (.object e) box) :=
  ⟨insertion_sort_contract, cycle_randf_contract, List.cons_ne_nil _ _, by decide,
    C10_leaves_are_inputs insertion_sort cycle_randf boxed_scene 0 0 0 3
      insertion_sort_contract cycle_randf_contract (List.cons_ne_nil _ _) (by decide)
      (boxed_scene_boxed 0 0) (boxed_scene_boxed 0 0)⟩

/-- C12. Box-miss pruning: when the box test of a `bvh_node` or of an `object_list`
fails for a ray and interval, `hit` returns false, leaves the output record as it was
and visits no child, whatever the children are. -/
theorem C12_box_miss_prunes {F : Type} [LinearOrder F] (bh : box_test F)
    (stack : hit_record F) (box : aabb F) (r : ray F) (tmin tmax : F) (rec : hit_record F)
    (hmiss : bh box r tmin tmax = false) :
    (∀ left right : bvh_node F,
        (bvh_node.node left right box).hit bh stack r tmin tmax rec = (false, rec) ∧
          (bvh_node.node left right box).hit_counted bh stack r tmin tmax rec =
            ((false, rec), 0)) ∧
      ∀ list : List (scene_object F),
        (object_list.mk list box).hit bh stack r tmin tmax rec = (false, rec) ∧
          (object_list.mk list box).hit_counted bh stack r tmin tmax rec =
            ((false, rec), 0) := by
  refine ⟨?_, ?_⟩
  · intro left right
    simp [bvh_node.hit, bvh_node.hit_counted, hmiss]
  · intro list
    simp [object_list.hit, object_list.hit_counted, hmiss]

/-- C12 at a concrete scene: the ray through `y = z = 5` misses the box of the first
primitive of `mixed_scene`. -/
theorem C12_box_miss_prunes_witness :
    probe_hit ⟨⟨1, -1, -1⟩, ⟨3, 1, 1⟩⟩ high_ray 0 ⊤ = false ∧
      (object_list.construct mixed_scene 0 0).hit_counted probe_hit blank high_ray 0 ⊤
        blank = ((false, blank), 0) :=
  ⟨by decide,
    ((C12_box_miss_prunes probe_hit blank ⟨⟨1, -1, -1⟩, ⟨3, 1, 1⟩⟩ high_ray 0 ⊤ blank
      (by decide)).2 mixed_scene).2⟩

/-- C13. Aggregate stored box is the prefix union: the box stored by the constructor of
`object_list` is the union, from `(+INFINITY, -INFINITY)`, of the boxes of the children
`0 .. k-1`, where `k` is the index of the first child whose `bounding_box` fails, or
`n` if none fails; when all children have boxes, `k = n` and the stored box contains
the box of every child. -/
theorem C13_stored_box_prefix_union {F : Type} [LinearOrder F] [BoundedOrder F]
    (l : List (scene_object F)) (time0 time1 : F) :
    (object_list.construct l time0 time1).box =
        union_all (element_boxes (l.take (first_boxless time0 time1 l)) time0 time1) ∧
      first_boxless time0 time1 l ≤ l.length ∧
      (∀ o ∈ l.take (first_boxless time0 time1 l),
        ∃ box, o.bounding_box time0 time1 = some box) ∧
      (first_boxless time0 time1 l < l.length →
        ∃ o, l[first_boxless time0 time1 l]? = some o ∧
          o.bounding_box time0 time1 = none) ∧
      ((∀ o ∈ l, ∃ box, o.bounding_box time0 time1 = some box) →
        first_boxless time0 time1 l = l.length ∧
          ∀ o ∈ l, ∀ box, o.bounding_box time0 time1 = some box →
            box.inside (object_list.construct l time0 time1).box) := by
  obtain ⟨h1, h2, h3, h4⟩ := first_boxless_spec time0 time1 l
  have hbox : (object_list.construct l time0 time1).box =
      union_all (element_boxes (l.take (first_boxless time0 time1 l)) time0 time1) := by
    show object_list.box_loop time0 time1 l ⟨⊤, ⊤, ⊤⟩ ⟨⊥, ⊥, ⊥⟩ = _
    rw [box_loop_up_to_boxless, surrounding_box_comm, surrounding_box_empty]
  refine ⟨hbox, h1, h2, h3, ?_⟩
  intro hall
  refine ⟨h4 hall, ?_⟩
  intro o ho box hb
  rw [hbox, h4 hall, List.take_length]
  exact inside_union_all _ box (mem_element_boxes ho hb)

/-- C13 at a concrete scene: in `mixed_scene` the first child without a box is child 1
and the stored box is the box of child 0. -/
theorem C13_stored_box_prefix_union_witness :
    first_boxless (0 : level) 0 mixed_scene = 1 ∧
      (object_list.construct mixed_scene 0 0).box =
        union_all (element_boxes (mixed_scene.take 1) 0 0) :=
  ⟨rfl, (C13_stored_box_prefix_union mixed_scene (0 : level) 0).1⟩

/-- C14. Hierarchy merge rule: when the box test of a `bvh_node` passes, `hit` queries
`left` and `right` with the unchanged `[tmin, tmax]`, two child visits at this node. It
returns false iff neither child hits; if exactly one child hits it outputs that
child's record; if both hit it outputs the left record when `left.t < right.t` and the
right record otherwise, so a tie outputs the right record, and the output `t` is
`min(left.t, right.t)`. -/
theorem C14_merge_rule {F : Type} [LinearOrder F] (bh : box_test F) (stack : hit_record F)
    (left right : bvh_node F) (box : aabb F) (r : ray F) (tmin tmax : F)
    (rec : hit_record F) (lres rres : Bool × hit_record F)
    (hbox : bh box r tmin tmax = true)
    (hl : left.hit bh stack r tmin tmax stack = lres)
    (hr : right.hit bh stack r tmin tmax stack = rres) :
    ((bvh_node.node left right box).hit_counted bh stack r tmin tmax rec).2 =
        (1 + (left.hit_counted bh stack r tmin tmax stack).2) +
          (1 + (right.hit_counted bh stack r tmin tmax stack).2) ∧
      (((bvh_node.node left right box).hit bh stack r tmin tmax rec).1 = false ↔
        lres.1 = false ∧ rres.1 = false) ∧
      (lres.1 = false → rres.1 = false →
        (bvh_node.node left right box).hit bh stack r tmin tmax rec = (false, rec)) ∧
      (lres.1 = true → rres.1 = false →
        (bvh_node.node left right box).hit bh stack r tmin tmax rec = (true, lres.2)) ∧
      (lres.1 = false → rres.1 = true →
        (bvh_node.node left right box).hit bh stack r tmin tmax rec = (true, rres.2)) ∧
      (lres.1 = true → rres.1 = true → lres.2.t < rres.2.t →
        (bvh_node.node left right box).hit bh stack r tmin tmax rec = (true, lres.2)) ∧
      (lres.1 = true → rres.1 = true → ¬ lres.2.t < rres.2.t →
        (bvh_node.node left right box).hit bh stack r tmin tmax rec = (true, rres.2)) ∧
      (lres.1 = true → rres.1 = true → lres.2.t = rres.2.t →
        (bvh_node.node left right box).hit bh stack r tmin tmax rec = (true, rres.2)) ∧
      (lres.1 = true → rres.1 = true →
        ((bvh_node.node left right box).hit bh stack r tmin tmax rec).2.t =
          Min.min lres.2.t rres.2.t) := by
  have hres : (bvh_node.node left right box).hit bh stack r tmin tmax rec =
      if !(lres.1 || rres.1) then (false, rec)
      else if lres.1 && rres.1 then
        if lres.2.t < rres.2.t then (true, lres.2) else (true, rres.2)
      else if lres.1 then (true, lres.2)
      else if rres.1 then (true, rres.2)
      else (true, rec) := by
    simp only [bvh_node.hit, hbox, if_true, hl, hr]
  refine ⟨?_, ?_, ?_, ?_, ?_, ?_, ?_, ?_, ?_⟩
  · simp only [bvh_node.hit_counted, hbox, if_true]
    split_ifs <;> rfl
  · rw [hres]
    cases h1 : lres.1 <;> cases h2 : rres.1 <;> simp
    split_ifs <;> rfl
  · intro h1 h2; rw [hres, h1, h2]; rfl
  · intro h1 h2; rw [hres, h1, h2]; rfl
  · intro h1 h2; rw [hres, h1, h2]; rfl
  · intro h1 h2 hlt; rw [hres, h1, h2]; simp [hlt]
  · intro h1 h2 hlt; rw [hres, h1, h2]; simp [hlt]
  · intro h1 h2 heq; rw [hres, h1, h2]; simp [heq]
  · intro h1 h2
    rw [hres, h1, h2]
    simp only [Bool.or_self, Bool.not_true, Bool.false_eq_true, if_false, Bool.and_self,
      if_true]
    split_ifs with hlt
    · exact (min_eq_left (le_of_lt hlt)).symm
    · exact (min_eq_right (not_lt.1 hlt)).symm

/-- C14 at a concrete scene: two boxes on the x axis, both hit, the left one first. -/
theorem C14_merge_rule_witness :
    probe_hit ⟨⟨1, -1, -1⟩, ⟨6, 1, 1⟩⟩ low_ray 0 ⊤ = true ∧
      ((slab ⟨1, -1, -1⟩ ⟨3, 1, 1⟩ 2).hit low_ray 0 ⊤ blank).1 = true ∧
      ((slab ⟨4, -1, -1⟩ ⟨6, 1, 1⟩ 1).hit low_ray 0 ⊤ blank).1 = true ∧
      ((slab ⟨1, -1, -1⟩ ⟨3, 1, 1⟩ 2).hit low_ray 0 ⊤ blank).2.t <
        ((slab ⟨4, -1, -1⟩ ⟨6, 1, 1⟩ 1).hit low_ray 0 ⊤ blank).2.t ∧
      (bvh_node.node (.object (slab ⟨1, -1, -1⟩ ⟨3, 1, 1⟩ 2))
          (.object (slab ⟨4, -1, -1⟩ ⟨6, 1, 1⟩ 1)) ⟨⟨1, -1, -1⟩, ⟨6, 1, 1⟩⟩).hit probe_hit
          blank low_ray 0 ⊤ blank =
        (true, ((slab ⟨1, -1, -1⟩ ⟨3, 1, 1⟩ 2).hit low_ray 0 ⊤ blank).2) :=
  ⟨by decide, by decide, by decide, by decide,
    (C14_merge_rule probe_hit blank (.object (slab ⟨1, -1, -1⟩ ⟨3, 1, 1⟩ 2))
      (.object (slab ⟨4, -1, -1⟩ ⟨6, 1, 1⟩ 1)) ⟨⟨1, -1, -1⟩, ⟨6, 1, 1⟩⟩ low_ray 0 ⊤ blank
      ((slab ⟨1, -1, -1⟩ ⟨3, 1, 1⟩ 2).hit low_ray 0 ⊤ blank)
      ((slab ⟨4, -1, -1⟩ ⟨6, 1, 1⟩ 1).hit low_ray 0 ⊤ blank)
      (by decide) rfl rfl).2.2.2.2.2.1 (by decide) (by decide) (by decide)⟩

/-- C15. Comparator is a consistent three-way order: with exact subtraction
(`p - q = 0` iff `p = q`, `p - q < 0` iff `p < q`), for each axis 0, 1, 2 and all
elements `a`, `b`, `c` that have boxes, `box_compare(axis)(a, b)` is `0` iff the box
minima agree on that axis, `-1` iff that of `a` is smaller and `1` iff it is larger;
hence `compare(a, b) = -compare(b, a)`, and `compare(a, b) <= 0` and
`compare(b, c) <= 0` imply `compare(a, c) <= 0`. -/
theorem C15_comparator_three_way {F : Type} [LinearOrder F] [Sub F] [Zero F]
    (axis : Int) (a b c : scene_object F) (A B C : aabb F)
    (hzero : ∀ p q : F, p - q = 0 ↔ p = q) (hneg : ∀ p q : F, p - q < 0 ↔ p < q)
    (haxis : axis = 0 ∨ axis = 1 ∨ axis = 2)
    (ha : a.bounding_box 0 0 = some A) (hb : b.bounding_box 0 0 = some B)
    (hc : c.bounding_box 0 0 = some C) :
    ∃ (cmp : cmp_fn F) (ab ba bc ac : Int), box_compare axis = .ok cmp ∧
      cmp a b = .ok ab ∧ cmp b a = .ok ba ∧ cmp b c = .ok bc ∧ cmp a c = .ok ac ∧
      (ab = 0 ↔ A._min.get axis = B._min.get axis) ∧
      (ab = -1 ↔ A._min.get axis < B._min.get axis) ∧
      (ab = 1 ↔ B._min.get axis < A._min.get axis) ∧
      (ab = 0 ∨ ab = -1 ∨ ab = 1) ∧
      ab = -ba ∧ (ab ≤ 0 → bc ≤ 0 → ac ≤ 0) := by
  obtain ⟨cmp, hcmp, hex⟩ := box_compare_exact hzero hneg axis haxis
  refine ⟨cmp, _, _, _, _, hcmp, hex a b A B ha hb, hex b a B A hb ha, hex b c B C hb hc,
    hex a c A C ha hc, three_way_eq_zero _ _, three_way_eq_neg_one _ _,
    three_way_eq_one _ _, ?_, three_way_swap _ _, ?_⟩
  · rcases lt_trichotomy (A._min.get axis) (B._min.get axis) with h | h | h
    · exact Or.inr (Or.inl ((three_way_eq_neg_one _ _).2 h))
    · exact Or.inl ((three_way_eq_zero _ _).2 h)
    · exact Or.inr (Or.inr ((three_way_eq_one _ _).2 h))
  · intro h1 h2
    rw [three_way_nonpos] at h1 h2 ⊢
    exact le_trans h1 h2

/-- The subtraction of the scale `level` is exact. -/
theorem level_sub_exact :
    (∀ p q : level, p - q = 0 ↔ p = q) ∧ (∀ p q : level, p - q < 0 ↔ p < q) := by
  decide

/-- C15 on the scale `level`: the three boxes of `boxed_scene` compared on the x axis. -/
theorem C15_comparator_three_way_witness :
    (∀ p q : level, p - q = 0 ↔ p = q) ∧ (∀ p q : level, p - q < 0 ↔ p < q) ∧
      ∃ (cmp : cmp_fn level) (ab ba bc ac : Int), box_compare 0 = .ok cmp ∧
        cmp (slab ⟨1, -1, -1⟩ ⟨3, 1, 1⟩ 2) (slab ⟨4, -1, -1⟩ ⟨6, 1, 1⟩ 1) = .ok ab ∧
        cmp (slab ⟨4, -1, -1⟩ ⟨6, 1, 1⟩ 1) (slab ⟨1, -1, -1⟩ ⟨3, 1, 1⟩ 2) = .ok ba ∧
        cmp (slab ⟨4, -1, -1⟩ ⟨6, 1, 1⟩ 1) (slab ⟨5, 4, 4⟩ ⟨6, 6, 6⟩ 3) = .ok bc ∧
        cmp (slab ⟨1, -1, -1⟩ ⟨3, 1, 1⟩ 2) (slab ⟨5, 4, 4⟩ ⟨6, 6, 6⟩ 3) = .ok ac ∧
        (ab = -1 ↔ (1 : level) < 4) ∧ ab = -ba ∧ (ab ≤ 0 → bc ≤ 0 → ac ≤ 0) := by
  obtain ⟨cmp, ab, ba, bc, ac, h1, h2, h3, h4, h5, _, h7, _, _, h10, h11⟩ :=
    C15_comparator_three_way 0 (slab ⟨1, -1, -1⟩ ⟨3, 1, 1⟩ 2)
      (slab ⟨4, -1, -1⟩ ⟨6, 1, 1⟩ 1) (slab ⟨5, 4, 4⟩ ⟨6, 6, 6⟩ 3)
      ⟨⟨1, -1, -1⟩, ⟨3, 1, 1⟩⟩ ⟨⟨4, -1, -1⟩, ⟨6, 1, 1⟩⟩ ⟨⟨5, 4, 4⟩, ⟨6, 6, 6⟩⟩
      level_sub_exact.1 level_sub_exact.2 (Or.inl rfl) rfl rfl rfl
  exact ⟨level_sub_exact.1, level_sub_exact.2, cmp, ab, ba, bc, ac, h1, h2, h3, h4, h5,
    h7, h10, h11⟩

/-- C16. Split axis is always valid: for a random value `r` with `0 <= r < 1` the axis
`int(3 * r)` is 0, 1 or 2, so `box_compare(axis)` returns one of the three comparators
and never takes its fatal default branch. -/
theorem C16_split_axis_valid {F : Type} [LinearOrder F] [Sub F] [Zero F] (r : ℚ)
    (h0 : 0 ≤ r) (h1 : r < 1) :
    (float_to_int (3 * r) = 0 ∨ float_to_int (3 * r) = 1 ∨ float_to_int (3 * r) = 2) ∧
      ((box_compare (float_to_int (3 * r)) : Except fatal_error (cmp_fn F)) =
          .ok box_compare_x ∨
        (box_compare (float_to_int (3 * r)) : Except fatal_error (cmp_fn F)) =
          .ok box_compare_y ∨
        (box_compare (float_to_int (3 * r)) : Except fatal_error (cmp_fn F)) =
          .ok box_compare_z) ∧
      ∀ e, (box_compare (float_to_int (3 * r)) : Except fatal_error (cmp_fn F)) ≠
        .error e := by
  have hax := axis_of_draw r h0 h1
  refine ⟨hax, ?_, ?_⟩
  · rcases hax with h | h | h <;> rw [h]
    · exact Or.inl rfl
    · exact Or.inr (Or.inl rfl)
    · exact Or.inr (Or.inr rfl)
  · intro e
    rcases hax with h | h | h <;> rw [h] <;> intro hc <;> cases hc

/-- C16 at the draw `2/3`. -/
theorem C16_split_axis_valid_witness :
    (0 : ℚ) ≤ 2 / 3 ∧ (2 / 3 : ℚ) < 1 ∧
      (float_to_int (3 * (2 / 3)) = 0 ∨ float_to_int (3 * (2 / 3)) = 1 ∨
        float_to_int (3 * (2 / 3)) = 2) :=
  ⟨by norm_num, by norm_num,
    (C16_split_axis_valid (F := level) (2 / 3) (by norm_num) (by norm_num)).1⟩

/-- C17. Single-element hierarchy: for an element `e` with a box, the constructor
called with `n = 1` completes with `left = right = e` and a box equal to the box of
`e`; for every ray and interval on which the box test of the node passes,
`bvh_node::hit` reports a hit exactly when `e` does and then outputs the record of
`e`, and on a miss leaves the output record as it was. -/
theorem C17_single_element {F : Type} [LinearOrder F] [Sub F] [Zero F] {G : Type}
    (bh : box_test F) (qsort : sort_fn F) (randf : G → ℚ × G) (stack : hit_record F)
    (e : scene_object F) (box box0 : aabb F) (time0 time1 : F) (rng : G) (fuel : Nat)
    (hq : sort_contract qsort) (hr : randf_contract randf)
    (hb0 : e.bounding_box 0 0 = some box0) (hb : e.bounding_box time0 time1 = some box) :
    bvh_node.construct qsort randf (fuel + 1) [e] time0 time1 rng =
        .done (.node (.object e) (.object e) box, [e], advance randf rng) ∧
      ∀ (r : ray F) (tmin tmax : F) (rec : hit_record F), bh box r tmin tmax = true →
        ((bvh_node.node (.object e) (.object e) box).hit bh stack r tmin tmax rec).1 =
            (e.hit r tmin tmax stack).1 ∧
          ((e.hit r tmin tmax stack).1 = true →
            ((bvh_node.node (.object e) (.object e) box).hit bh stack r tmin tmax rec).2 =
              (e.hit r tmin tmax stack).2) ∧
          ((e.hit r tmin tmax stack).1 = false →
            ((bvh_node.node (.object e) (.object e) box).hit bh stack r tmin tmax rec).2 =
              rec) := by
  refine ⟨?_, ?_⟩
  · rcases construct_result qsort randf hq hr time0 time1 (fuel + 1) [e] rng
        (List.cons_ne_nil _ _) (by simp) with
      ⟨b, l, g, hdone, hperm, hbuilt⟩ | ⟨err, _, _, o, ho, hor⟩
    · obtain ⟨_, _, hg, _⟩ := construct_done_spec qsort randf hq time0 time1 (fuel + 1) [e]
        rng b l g (List.cons_ne_nil _ _) hdone
      have hl : l = [e] := List.perm_singleton.1 hperm
      have hg1 : g = advance randf rng := by
        rw [hg]
        simp only [List.length_singleton]
        rw [draws_base (by omega)]
        rfl
      rw [hdone, hg1]
      cases hbuilt with
      | one e1 b1 hb1 =>
        obtain ⟨rfl, _⟩ := List.cons.inj hl
        rw [hb] at hb1
        cases hb1
        rw [surrounding_box_self]
      | two e0 e1 b0 b1 _ _ => simp at hl
      | many l0 l1 left right b0 b1 h2 _ _ _ _ _ =>
        have := congrArg List.length hl
        simp only [List.length_append, List.length_singleton] at this
        omega
    · exfalso
      rw [List.mem_singleton.1 ho] at hor
      rcases hor with h | h
      · rw [hb0] at h; cases h
      · rw [hb] at h; cases h
  · intro r tmin tmax rec hbox
    simp only [bvh_node.hit, hbox, if_true]
    cases he : (e.hit r tmin tmax stack).1
    · simp
    · simp

/-- C17 at a concrete scene: one box, insertion sort and the cyclic generator. -/
theorem C17_single_element_witness :
    sort_contract (insertion_sort : sort_fn level) ∧ randf_contract cycle_randf ∧
      (slab (⟨1, -1, -1⟩ : vec3 level) ⟨3, 1, 1⟩ 2).bounding_box 0 0 =
        some ⟨⟨1, -1, -1⟩, ⟨3, 1, 1⟩⟩ ∧
      bvh_node.construct insertion_sort cycle_randf 1 [slab ⟨1, -1, -1⟩ ⟨3, 1, 1⟩ 2]
          (0 : level) 0 0 =
        .done (.node (.object (slab ⟨1, -1, -1⟩ ⟨3, 1, 1⟩ 2))
          (.object (slab ⟨1, -1, -1⟩ ⟨3, 1, 1⟩ 2)) ⟨⟨1, -1, -1⟩, ⟨3, 1, 1⟩⟩,
          [slab ⟨1, -1, -1⟩ ⟨3, 1, 1⟩ 2], advance cycle_randf 0) :=
  ⟨insertion_sort_contract, cycle_randf_contract, rfl,
    (C17_single_element probe_hit insertion_sort cycle_randf blank
      (slab ⟨1, -1, -1⟩ ⟨3, 1, 1⟩ 2) ⟨⟨1, -1, -1⟩, ⟨3, 1, 1⟩⟩ ⟨⟨1, -1, -1⟩, ⟨3, 1, 1⟩⟩
      0 0 0 0 insertion_sort_contract cycle_randf_contract rfl rfl).1⟩

/-- C18. Random draw order: construction over a non-empty array of `n` boxed elements
completes having advanced the generator by `D(n)` draws, one per created `bvh_node`,
where `D(1) = D(2) = 1` and `D(n) = 1 + D(n/2) + D(n - n/2)` for `n > 2`; for `n > 2`
the node draws first, the left child is then built with the next `D(n/2)` draws and
the right child with the `D(n - n/2)` draws after those. -/
theorem C18_draw_order {F : Type} [LinearOrder F] [Sub F] [Zero F] {G : Type}
    (qsort : sort_fn F) (randf : G → ℚ × G) (list : List (scene_object F))
    (time0 time1 : F) (rng : G) (fuel : Nat)
    (hq : sort_contract qsort) (hr : randf_contract randf)
    (hne : list ≠ []) (hfuel : list.length ≤ fuel)
    (hb0 : ∀ o ∈ list, ∃ box, o.bounding_box 0 0 = some box)
    (hb : ∀ o ∈ list, ∃ box, o.bounding_box time0 time1 = some box) :
    (draws 1 = 1 ∧ draws 2 = 1 ∧
        ∀ n, 2 < n → draws n = 1 + draws (n / 2) + draws (n - n / 2)) ∧
      ∃ b l g, bvh_node.construct qsort randf fuel list time0 time1 rng = .done (b, l, g) ∧
        g = (advance randf)^[draws list.length] rng ∧
        b.nodes.length = draws list.length ∧
        (2 < list.length → ∃ fuel1 cmp sorted left l0 right l1 box,
          fuel = fuel1 + 1 ∧
          box_compare (float_to_int (3 * (randf rng).1)) = .ok cmp ∧
          qsort cmp list = .ok sorted ∧
          bvh_node.construct qsort randf fuel1 (sorted.take (list.length / 2)) time0 time1
              (advance randf rng) =
            .done (left, l0, (advance randf)^[1 + draws (list.length / 2)] rng) ∧
          bvh_node.construct qsort randf fuel1 (sorted.drop (list.length / 2)) time0 time1
              ((advance randf)^[1 + draws (list.length / 2)] rng) =
            .done (right, l1, g) ∧
          b = .node left right box) := by
  refine ⟨⟨draws_base (by omega), draws_base (by omega), fun n hn => draws_step hn⟩, ?_⟩
  rcases construct_result qsort randf hq hr time0 time1 fuel list rng hne hfuel with
    ⟨b, l, g, hdone, hperm, hbuilt⟩ | ⟨e, _, _, o, ho, hor⟩
  · obtain ⟨_, _, hg, hnodes⟩ :=
      construct_done_spec qsort randf hq time0 time1 fuel list rng b l g hne hdone
    refine ⟨b, l, g, hdone, hg, hnodes, ?_⟩
    intro h3
    obtain ⟨fuel1, rfl⟩ : ∃ fuel1, fuel = fuel1 + 1 := ⟨fuel - 1, by omega⟩
    obtain ⟨cmp, sorted, hcmp, hs, hcase⟩ :=
      construct_done_inv qsort randf fuel1 list time0 time1 rng b l g hdone
    have hlen := (hq.perm cmp list sorted hs).length_eq
    rcases hcase with ⟨e, box, rfl, _⟩ | ⟨e0, e1, b0, b1, rfl, _⟩ |
      ⟨_, _, left, l0, g0, right, l1, b0, b1, hL, hR, _, _, hbn, _⟩
    · simp only [List.length_singleton] at hlen; omega
    · simp only [List.length_cons, List.length_nil] at hlen; omega
    · rw [hlen] at hL hR
      have hne0 : sorted.take (list.length / 2) ≠ [] := by
        intro hnil
        have := congrArg List.length hnil
        rw [List.length_take] at this
        simp only [List.length_nil] at this
        omega
      obtain ⟨_, _, hg0, _⟩ := construct_done_spec qsort randf hq time0 time1 fuel1 _
        (advance randf rng) left l0 g0 hne0 hL
      have htake : (sorted.take (list.length / 2)).length = list.length / 2 := by
        rw [List.length_take]; omega
      rw [htake] at hg0
      have hg0' : g0 = (advance randf)^[1 + draws (list.length / 2)] rng := by
        rw [hg0, Nat.add_comm 1, Function.iterate_add_apply]
        rfl
      rw [hg0'] at hL hR
      exact ⟨fuel1, cmp, sorted, left, l0, right, l1, _, rfl, hcmp, hs, hL, hR, hbn⟩
  · exfalso
    rcases hor with h | h
    · obtain ⟨box, hbox⟩ := hb0 o ho
      rw [hbox] at h; cases h
    · obtain ⟨box, hbox⟩ := hb o ho
      rw [hbox] at h; cases h

/-- C18 at a concrete scene: three boxes, insertion sort and the cyclic generator,
which consumes `draws 3` draws. -/
theorem C18_draw_order_witness :
    sort_contract (insertion_sort : sort_fn level) ∧ randf_contract cycle_randf ∧
      boxed_scene ≠ [] ∧ boxed_scene.length ≤ 3 ∧
      ∃ b l g, bvh_node.construct insertion_sort cycle_randf 3 boxed_scene 0 0 0 =
          .done (b, l, g) ∧
        g = (advance cycle_randf)^[draws boxed_scene.length] 0 ∧
        b.nodes.length = draws boxed_scene.length := by
  obtain ⟨_, b, l, g, hdone, hg, hnodes, _⟩ :=
    C18_draw_order insertion_sort cycle_randf boxed_scene 0 0 0 3
      insertion_sort_contract cycle_randf_contract (List.cons_ne_nil _ _) (by decide)
      (boxed_scene_boxed 0 0) (boxed_scene_boxed 0 0)
  exact ⟨insertion_sort_contract, cycle_randf_contract, List.cons_ne_nil _ _, by decide,
    b, l, g, hdone, hg, hnodes⟩

/-- C19. Construction terminates exactly for non-empty input: for `n > 2` both
sub-sizes `n / 2` and `n - n / 2` lie in `[1, n - 1]`; on a non-empty array the
constructor with fuel `n` returns, completing or stopping at a `DebugBreak()`; on the
empty array it recurses on two empty parts and does not return, whatever the fuel. -/
theorem C19_terminates_iff_nonempty {F : Type} [LinearOrder F] [Sub F] [Zero F]
    {G : Type} (qsort : sort_fn F) (randf : G → ℚ × G) (time0 time1 : F)
    (hq : sort_contract qsort) (hr : randf_contract randf) :
    (∀ sorted : List (scene_object F), 2 < sorted.length →
        (1 ≤ (sorted.take (sorted.length / 2)).length ∧
          (sorted.take (sorted.length / 2)).length ≤ sorted.length - 1) ∧
        (1 ≤ (sorted.drop (sorted.length / 2)).length ∧
          (sorted.drop (sorted.length / 2)).length ≤ sorted.length - 1)) ∧
      (∀ (fuel : Nat) (list : List (scene_object F)) (rng : G), list ≠ [] →
        list.length ≤ fuel →
        (∃ res, bvh_node.construct qsort randf fuel list time0 time1 rng = .done res) ∨
          ∃ e, bvh_node.construct qsort randf fuel list time0 time1 rng = .fatal e) ∧
      (([] : List (scene_object F)).take (0 / 2) = [] ∧
        ([] : List (scene_object F)).drop (0 / 2) = []) ∧
      ∀ (fuel : Nat) (rng : G),
        bvh_node.construct qsort randf fuel [] time0 time1 rng = .out_of_fuel := by
  refine ⟨?_, ?_, ⟨rfl, rfl⟩, ?_⟩
  · intro sorted h3
    rw [List.length_take, List.length_drop]
    omega
  · intro fuel list rng hne hfuel
    rcases construct_result qsort randf hq hr time0 time1 fuel list rng hne hfuel with
      ⟨b, l, g, hdone, _, _⟩ | ⟨e, hfatal, _⟩
    · exact Or.inl ⟨_, hdone⟩
    · exact Or.inr ⟨e, hfatal⟩
  · intro fuel
    induction fuel with
    | zero => intro rng; rfl
    | succ fuel ih =>
      intro rng
      obtain ⟨cmp, hcmp, _⟩ := box_compare_valid_axis (F := F) _
        (axis_of_draw _ (hr rng).1 (hr rng).2)
      rw [bvh_node.construct]
      simp only [hcmp]
      cases hs : qsort cmp [] with
      | error e =>
        obtain ⟨a, ha, _⟩ := hq.fatal cmp [] e hs
        cases ha
      | ok sorted =>
        have hnil : sorted = [] := (hq.perm cmp [] sorted hs).eq_nil
        subst hnil
        simp only [List.length_nil, Nat.zero_div, List.take_nil, List.drop_nil, ih]

/-- C19 with insertion sort and the cyclic generator: ten nested calls on the empty
array do not return. -/
theorem C19_terminates_iff_nonempty_witness :
    sort_contract (insertion_sort : sort_fn level) ∧ randf_contract cycle_randf ∧
      bvh_node.construct insertion_sort cycle_randf 10 ([] : List (scene_object level))
        0 0 0 = .out_of_fuel :=
  ⟨insertion_sort_contract, cycle_randf_contract,
    (C19_terminates_iff_nonempty insertion_sort cycle_randf (0 : level) 0
      insertion_sort_contract cycle_randf_contract).2.2.2 10 0⟩

/-- C20. Output record untouched on a miss: whatever the children do, if
`object_list::hit` or `bvh_node::hit` returns false, the record behind the output
pointer is what it was before the call. -/
theorem C20_miss_keeps_record {F : Type} [LinearOrder F] (bh : box_test F)
    (stack : hit_record F) (r : ray F) (tmin tmax : F) (rec : hit_record F) :
    (∀ ol : object_list F, (ol.hit bh stack r tmin tmax rec).1 = false →
        (ol.hit bh stack r tmin tmax rec).2 = rec) ∧
      ∀ (left right : bvh_node F) (box : aabb F),
        ((bvh_node.node left right box).hit bh stack r tmin tmax rec).1 = false →
          ((bvh_node.node left right box).hit bh stack r tmin tmax rec).2 = rec := by
  refine ⟨?_, ?_⟩
  · intro ol
    unfold object_list.hit
    split_ifs
    · exact hit_loop_miss_frame r tmin ol.list tmax stack rec
    · intro _; rfl
  · intro left right box
    simp only [bvh_node.hit]
    split_ifs <;> intro h <;> first | rfl | cases h

/-- C20 at a concrete scene: the ray through `y = z = 5` misses `mixed_scene`. -/
theorem C20_miss_keeps_record_witness :
    ((object_list.construct mixed_scene 0 0).hit probe_hit blank high_ray 0 ⊤
        blank).1 = false ∧
      ((object_list.construct mixed_scene 0 0).hit probe_hit blank high_ray 0 ⊤
        blank).2 = blank :=
  ⟨by decide,
    (C20_miss_keeps_record probe_hit blank high_ray 0 ⊤ blank).1
      (object_list.construct mixed_scene 0 0) (by decide)⟩

end claims

end MiniRayTracer
